import Mathlib

/-!
# CardCache (machine-access-node): record store over a flat file

A shallow embedding of `code/machine-node-wifi/cardcache.cpp`.

* An Arduino `String` is a `List Char` (NUL-free text, compared by content).
* The SPIFFS file system, as far as the one cache file is concerned, is an
  `Option (List Char)`: `none` when the file is absent (every `open` in mode
  `"r"` or `"r+"` fails), `some d` when it exists with content `d`.
  Writes are taken to succeed (the flash has room).
* An open `File` is its content together with the read/write position.
* File offsets are natural numbers (SPIFFS files are far below `2^31` bytes).
-/

namespace CardCache

/-! ## Constants -/

/-- The tombstone pattern `BLANK_UID` (`#define BLANK_UID "        "`): eight spaces. -/
def BLANK_UID : List Char := "        ".toList

/-- The text of the title line written by `setup` (`f.println("AUTH UID")`). -/
def HEADER : List Char := "AUTH UID".toList

/-- The line terminator written by `Print::println`: carriage return, line feed. -/
def CRLF : List Char := ['\r', '\n']

/-! ## The file handle -/

/-- An open file: the whole content and the current position. -/
structure File where
  data : List Char
  pos : Nat
deriving DecidableEq, Repr

/-- The call `File::available()`: the number of bytes between the position and the end. -/
def File.available (f : File) : Nat := f.data.length - f.pos

/-- The loop of `Stream::readStringUntil` on the bytes still to be read: characters
are collected up to the terminator, which is consumed and not returned, or up to the
end of the file. Returns the line and the number of bytes consumed. -/
def readUntil (t : Char) : List Char → List Char × Nat
  | [] => ([], 0)
  | c :: cs => if c = t then ([], 1) else ((readUntil t cs).1.cons c, (readUntil t cs).2 + 1)

/-- The call `f.readStringUntil(t)`: the line read and the handle after it. -/
def File.readStringUntil (f : File) (t : Char) : List Char × File :=
  ((readUntil t (f.data.drop f.pos)).1,
    { data := f.data, pos := f.pos + (readUntil t (f.data.drop f.pos)).2 })

/-- The call `f.println(s)`: the bytes of `s` followed by CR LF are written at the
position, over the bytes that are there and past the end when they run out. -/
def File.println (f : File) (s : List Char) : File :=
  { data := f.data.take f.pos ++ (s ++ CRLF) ++ f.data.drop (f.pos + (s ++ CRLF).length),
    pos := f.pos + (s ++ CRLF).length }

/-- The call `f.seek(pos, SeekSet)`: succeeds when the offset is inside the file or at
its end; on failure nothing is written afterwards, the position is left alone. -/
def File.seekSet (f : File) (pos : Nat) : Bool × File :=
  if pos ≤ f.data.length then (true, { data := f.data, pos := pos }) else (false, f)

/-- The call `f.seek(-n, SeekCur)`: moves back `n` bytes; a move before the start of the
file fails and leaves the position alone. -/
def File.seekCurBack (f : File) (n : Nat) : Bool × File :=
  if n ≤ f.pos then (true, { data := f.data, pos := f.pos - n }) else (false, f)

/-- The value of `int location = f.position() - 10` returned as `unsigned long`:
exact from position 10 on, wrapping modulo `2^32` below it. -/
def location (pos : Nat) : Nat :=
  if 10 ≤ pos then pos - 10 else pos + 2 ^ 32 - 10

/-! ## The operations of `CardCache` -/

/-- The `while (f.available())` loop of `doesUidExist`. The fuel bounds the number of
times the loop condition is tested; `none` means the fuel ran out. -/
def doesUidExistLoop (uid : List Char) : Nat → File → Option Nat
  | 0, _ => none
  | fuel + 1, f =>
    if f.available ≠ 0 then
      if (f.readStringUntil '\n').1 = uid ++ ['\r'] then
        some (location (f.readStringUntil '\n').2.pos)
      else doesUidExistLoop uid fuel (f.readStringUntil '\n').2
    else some 0

/-- The method `CardCache::doesUidExist`: 0 when the file cannot be opened or no line
matches, else the position after the first matching line minus 10. Every pass of the
loop consumes at least one byte, so `length + 1` tests of the condition are enough
(`doesUidExistLoop_isSome`). -/
def doesUidExist (uid : List Char) (fs : Option (List Char)) : Nat :=
  match fs with
  | none => 0
  | some d => (doesUidExistLoop uid (d.length + 1) { data := d, pos := 0 }).getD 0

/-- The method `CardCache::scrubPosition`: the result and the file system afterwards. -/
def scrubPosition (pos : Nat) (fs : Option (List Char)) : Bool × Option (List Char) :=
  match fs with
  | none => (false, none)
  | some d =>
    if (File.seekSet { data := d, pos := 0 } pos).1 then
      (true, some ((File.seekSet { data := d, pos := 0 } pos).2.println BLANK_UID).data)
    else (false, some d)

/-- The `while (f.available())` loop of `writeUid` with the write that ends it: the
handle after the `println`. `none` means the fuel ran out. -/
def writeUidLoop (uid : List Char) : Nat → File → Option File
  | 0, _ => none
  | fuel + 1, f =>
    if f.available ≠ 0 then
      if (f.readStringUntil '\n').1 = BLANK_UID ++ ['\r'] then
        some (((f.readStringUntil '\n').2.seekCurBack 10).2.println uid)
      else writeUidLoop uid fuel (f.readStringUntil '\n').2
    else some (f.println uid)

/-- The method `CardCache::writeUid`: the result and the file system afterwards. Every
pass of the loop consumes at least one byte, so `length + 1` tests of the condition are
enough (`writeUidLoop_isSome`). -/
def writeUid (uid : List Char) (fs : Option (List Char)) : Bool × Option (List Char) :=
  match fs with
  | none => (false, none)
  | some d =>
    (true, some ((writeUidLoop uid (d.length + 1) { data := d, pos := 0 }).getD
      { data := d, pos := 0 }).data)

/-- The method `CardCache::addUid`: the result and the file system afterwards. -/
def addUid (uid : List Char) (fs : Option (List Char)) : Bool × Option (List Char) :=
  if doesUidExist uid fs = 0 then (true, (writeUid uid fs).2) else (false, fs)

/-- The `while (location)` loop of `delUid`. The fuel bounds the number of passes of the
loop body; the count is `none` when the fuel ran out with `location` still non-zero, and
the file system is the one reached at that point. -/
def delUidLoop (uid : List Char) : Nat → Option (List Char) → Nat → Nat →
    Option Nat × Option (List Char)
  | 0, fs, loc, i => if loc ≠ 0 then (none, fs) else (some i, fs)
  | fuel + 1, fs, loc, i =>
    if loc ≠ 0 then
      delUidLoop uid fuel (scrubPosition loc fs).2
        (doesUidExist uid (scrubPosition loc fs).2) (i + 1)
    else (some i, fs)

/-- The method `CardCache::delUid`, run for at most `fuel` passes of its loop. -/
def delUid (fuel : Nat) (uid : List Char) (fs : Option (List Char)) :
    Option Nat × Option (List Char) :=
  delUidLoop uid fuel fs (doesUidExist uid fs) 0

/-- The method `CardCache::setup`. `formatOk` and `createOk` are the outcomes of
`SPIFFS.format()` and of `SPIFFS.open(_file, "w+")`; a successful format removes the
file, a failed creation leaves nothing to write to. -/
def setup (format formatOk createOk : Bool) (fs : Option (List Char)) : Option (List Char) :=
  match (if format && formatOk then none else fs) with
  | some d => some d
  | none =>
    if createOk then some ((File.println { data := [], pos := 0 } HEADER).data) else none

/-- The method `CardCache::clearCache`. `removeOk` is the outcome of
`SPIFFS.remove(_file)`, which deletes the file when it succeeds; `createOk` is the
outcome of the `SPIFFS.open(_file, "w+")` of the `setup()` that follows. -/
def clearCache (removeOk createOk : Bool) (fs : Option (List Char)) :
    Bool × Option (List Char) :=
  if removeOk then (true, setup false false createOk none) else (false, fs)

/-! ## Ready stores -/

/-- The bytes of a sequence of records: each payload followed by CR LF. -/
def body : List (List Char) → List Char
  | [] => []
  | p :: rs => p ++ CRLF ++ body rs

/-- The file of a ready store: the header line, then the records. -/
def encode (rs : List (List Char)) : List Char := HEADER ++ CRLF ++ body rs

/-- Every record payload is 8 characters long. -/
def WF (rs : List (List Char)) : Prop := ∀ p ∈ rs, p.length = 8

instance (rs : List (List Char)) : Decidable (WF rs) := by unfold WF; infer_instance

/-- The index of the first record whose payload is `t`. -/
def firstIndex (t : List Char) : List (List Char) → Option Nat
  | [] => none
  | p :: rs => if p = t then some 0 else (firstIndex t rs).map (· + 1)

/-- The line scan that `doesUidExist` and `writeUid` have in common, on the bytes still
to be read: whether a line equal to `target` was read, and the position reached. -/
def findLine (target : List Char) : Nat → List Char → Nat → Option (Bool × Nat)
  | 0, _, _ => none
  | fuel + 1, rest, pos =>
    if rest.length ≠ 0 then
      if (readUntil '\n' rest).1 = target then some (true, pos + (readUntil '\n' rest).2)
      else findLine target fuel (rest.drop (readUntil '\n' rest).2)
        (pos + (readUntil '\n' rest).2)
    else some (false, pos)

/-- The outcome of the line scan over a sequence of records, started at `pos`. -/
def scanResult (t : List Char) (rs : List (List Char)) (pos : Nat) : Bool × Nat :=
  match firstIndex t rs with
  | some k => (true, pos + 10 * (k + 1))
  | none => (false, pos + 10 * rs.length)

/-- The records after `writeUid`: the UID in the first tombstone slot, or appended. -/
def placeUid (u : List Char) (rs : List (List Char)) : List (List Char) :=
  match firstIndex BLANK_UID rs with
  | some k => rs.set k u
  | none => rs ++ [u]

/-- The records after `delUid` has returned: every copy of the UID is a tombstone. -/
def scrubAll (u : List Char) (rs : List (List Char)) : List (List Char) :=
  rs.map (fun p => if p = u then BLANK_UID else p)

/-- The number of live (non-tombstone) records whose payload is `u`. -/
def liveCount (u : List Char) (rs : List (List Char)) : Nat :=
  rs.countP (fun p => decide (p = u) && decide (p ≠ BLANK_UID))

/-- No two records at different places hold the same live (non-tombstone) payload. -/
def NoDupLive (rs : List (List Char)) : Prop :=
  ∀ (i j : Nat) (p : List Char), i < j → rs[i]? = some p → rs[j]? = some p → p = BLANK_UID

/-- A call that changes the store: `addUid` or `delUid`, with its UID. -/
inductive Op where
  | add (uid : List Char)
  | del (uid : List Char)

/-- The UID a call is made with. -/
def Op.uid : Op → List Char
  | Op.add u => u
  | Op.del u => u

/-- A sequence of calls, one after the other, each `delUid` allowed `fuel` passes of its
loop; `none` when a `delUid` does not return within them. -/
def runOps (fuel : Nat) : List Op → Option (List Char) → Option (Option (List Char))
  | [], fs => some fs
  | Op.add u :: ops, fs => runOps fuel ops (addUid u fs).2
  | Op.del u :: ops, fs =>
    match (delUid fuel u fs).1 with
    | some _ => runOps fuel ops (delUid fuel u fs).2
    | none => none

/-- The payloads of a file in the on-disk format: 8 characters, none of them CR or LF. -/
def FormatRecs (rs : List (List Char)) : Prop :=
  ∀ p ∈ rs, p.length = 8 ∧ '\r' ∉ p ∧ '\n' ∉ p

instance (rs : List (List Char)) : Decidable (FormatRecs rs) := by
  unfold FormatRecs; infer_instance

/-- The on-disk format: the file exists and is the 10 bytes `AUTH UID` CR LF followed by
a whole number of 10-byte records, each 8 payload characters without CR or LF, then
CR LF. -/
def Format (fs : Option (List Char)) : Prop :=
  ∃ rs, FormatRecs rs ∧ fs = some (encode rs)

/-! ## Reading lines -/

theorem readUntil_record (q R : List Char) :
    ('\n' ∉ q ∧ readUntil '\n' (q ++ CRLF ++ R) = (q ++ ['\r'], q.length + 2)) ∨
    (∃ a b, q = a ++ '\n' :: b ∧ ∀ X, readUntil '\n' (q ++ X) = (a, a.length + 1)) := by
  induction q with
  | nil => left; simp [readUntil, CRLF]
  | cons c q ih =>
    by_cases hc : c = '\n'
    · right; exact ⟨[], q, by simp [hc], fun X => by simp [readUntil, hc]⟩
    · rcases ih with ⟨h1, h2⟩ | ⟨a, b, h1, h2⟩
      · left
        refine ⟨by simp [h1, Ne.symm hc], ?_⟩
        have h2' : readUntil '\n' (q ++ (CRLF ++ R)) = (q ++ ['\r'], q.length + 2) := by
          simpa using h2
        simp [readUntil, hc, h2']
      · right
        refine ⟨c :: a, b, by simp [h1], fun X => ?_⟩
        have := h2 X
        simp [readUntil, hc, this]

theorem readUntil_noLF (l : List Char) : '\n' ∉ (readUntil '\n' l).1 := by
  induction l with
  | nil => simp [readUntil]
  | cons c l ih =>
    by_cases hc : c = '\n'
    · simp [readUntil, hc]
    · simp [readUntil, hc, ih, Ne.symm hc]

theorem readUntil_consumed (l : List Char) (h : l ≠ []) :
    1 ≤ (readUntil '\n' l).2 ∧ (readUntil '\n' l).2 ≤ l.length := by
  induction l with
  | nil => exact absurd rfl h
  | cons c l ih =>
    by_cases hc : c = '\n'
    · simp [readUntil, hc]
    · by_cases hl : l = []
      · simp [readUntil, hc, hl]
      · have := ih hl
        simp [readUntil, hc]
        omega

/-! ## The line scan -/

theorem findLine_isSome (target : List Char) :
    ∀ (fuel : Nat) (rest : List Char) (pos : Nat), rest.length < fuel →
      (findLine target fuel rest pos).isSome := by
  intro fuel
  induction fuel with
  | zero => intro rest pos h; omega
  | succ fuel ih =>
    intro rest pos h
    unfold findLine
    by_cases hr : rest.length ≠ 0
    · have hne : rest ≠ [] := by intro h0; simp [h0] at hr
      have hc := readUntil_consumed rest hne
      rw [if_pos hr]
      by_cases hm : (readUntil '\n' rest).1 = target
      · rw [if_pos hm]; rfl
      · rw [if_neg hm]
        apply ih
        rw [List.length_drop]
        omega
    · rw [if_neg hr]; rfl

theorem findLine_target_LF (target : List Char) (ht : '\n' ∈ target) :
    ∀ (fuel : Nat) (rest : List Char) (pos : Nat), rest.length < fuel →
      findLine target fuel rest pos = some (false, pos + rest.length) := by
  intro fuel
  induction fuel with
  | zero => intro rest pos h; omega
  | succ fuel ih =>
    intro rest pos h
    unfold findLine
    by_cases hr : rest.length ≠ 0
    · have hne : rest ≠ [] := by intro h0; simp [h0] at hr
      have hc := readUntil_consumed rest hne
      have hm : (readUntil '\n' rest).1 ≠ target := by
        intro h0
        exact readUntil_noLF rest (h0 ▸ ht)
      rw [if_pos hr, if_neg hm, ih _ _ (by rw [List.length_drop]; omega), List.length_drop]
      congr 2
      omega
    · rw [if_neg hr]
      have : rest.length = 0 := by omega
      simp [this]

/-- Scanning the tail of a record (fewer than 8 payload bytes left) never matches a
9-byte target and resumes at the next record. -/
theorem findLine_recordTail (target R : List Char) (v : Nat → Bool × Nat) (ht : target.length = 9)
    (H : ∀ fuel pos, R.length < fuel → findLine target fuel R pos = some (v pos)) :
    ∀ (n : Nat) (q : List Char), q.length = n → n < 8 → ∀ (fuel pos : Nat),
      (q ++ CRLF ++ R).length < fuel →
      findLine target fuel (q ++ CRLF ++ R) pos = some (v (pos + q.length + 2)) := by
  intro n
  induction n using Nat.strong_induction_on with
  | _ n ih =>
    intro q hq hn fuel pos hf
    cases fuel with
    | zero => omega
    | succ fuel =>
      have hlen : (q ++ CRLF ++ R).length = q.length + 2 + R.length := by simp [CRLF]; omega
      unfold findLine
      rw [if_pos (by omega)]
      rcases readUntil_record q R with ⟨_, h2⟩ | ⟨a, b, h1, h2⟩
      · have hm : (readUntil '\n' (q ++ CRLF ++ R)).1 ≠ target := by
          rw [h2]; intro h0
          have := congrArg List.length h0
          simp at this; omega
        rw [if_neg hm, h2]
        have hd : List.drop (q.length + 2) (q ++ CRLF ++ R) = R := by
          have : (q ++ CRLF).length = q.length + 2 := by simp [CRLF]
          rw [← this, List.drop_left]
        simp only [hd]
        rw [H _ _ (by omega)]
        congr 2
      · have h3 := h2 (CRLF ++ R)
        rw [← List.append_assoc] at h3
        have hab : q.length = a.length + 1 + b.length := by rw [h1]; simp; omega
        have hm : (readUntil '\n' (q ++ CRLF ++ R)).1 ≠ target := by
          rw [h3]; intro h0
          have := congrArg List.length h0
          simp at this; omega
        rw [if_neg hm, h3]
        have hd : List.drop (a.length + 1) (q ++ CRLF ++ R) = b ++ CRLF ++ R := by
          have : (a ++ ['\n']).length = a.length + 1 := by simp
          rw [← this, h1]
          have e : a ++ '\n' :: b ++ CRLF ++ R = (a ++ ['\n']) ++ (b ++ CRLF ++ R) := by simp
          rw [e, List.drop_left]
        simp only [hd]
        rw [ih b.length (by omega) b rfl (by omega) fuel _ (by simp [CRLF]; omega)]
        congr 2
        omega

/-- Scanning one whole record: a match exactly when the payload is the target's, else
the scan resumes at the next record. -/
theorem findLine_record (t p R : List Char) (v : Nat → Bool × Nat) (ht : t.length = 8)
    (hLF : '\n' ∉ t) (hp : p.length = 8)
    (H : ∀ fuel pos, R.length < fuel → findLine (t ++ ['\r']) fuel R pos = some (v pos))
    (fuel pos : Nat) (hf : (p ++ CRLF ++ R).length < fuel) :
    findLine (t ++ ['\r']) fuel (p ++ CRLF ++ R) pos =
      some (if p = t then (true, pos + 10) else v (pos + 10)) := by
  cases fuel with
  | zero => omega
  | succ fuel =>
    have hlen : (p ++ CRLF ++ R).length = 10 + R.length := by simp [CRLF, hp]; omega
    unfold findLine
    rw [if_pos (by omega)]
    rcases readUntil_record p R with ⟨_, h2⟩ | ⟨a, b, h1, h2⟩
    · rw [h2]
      by_cases hpt : p = t
      · simp [hpt, ht]
      · have hm : p ++ ['\r'] ≠ t ++ ['\r'] := by
          intro h0; exact hpt (List.append_cancel_right h0)
        rw [if_neg hm, if_neg hpt]
        have hd : List.drop (p.length + 2) (p ++ CRLF ++ R) = R := by
          have : (p ++ CRLF).length = p.length + 2 := by simp [CRLF]
          rw [← this, List.drop_left]
        simp only [hd]
        rw [H _ _ (by omega), hp]
    · have h3 := h2 (CRLF ++ R)
      rw [← List.append_assoc] at h3
      have hab : p.length = a.length + 1 + b.length := by rw [h1]; simp; omega
      have hpt : p ≠ t := by
        intro h0; apply hLF; rw [← h0, h1]; simp
      have hm : (readUntil '\n' (p ++ CRLF ++ R)).1 ≠ t ++ ['\r'] := by
        rw [h3]; intro h0
        have := congrArg List.length h0
        simp at this; omega
      rw [if_neg hm, h3, if_neg hpt]
      have hd : List.drop (a.length + 1) (p ++ CRLF ++ R) = b ++ CRLF ++ R := by
        have : (a ++ ['\n']).length = a.length + 1 := by simp
        rw [← this, h1]
        have e : a ++ '\n' :: b ++ CRLF ++ R = (a ++ ['\n']) ++ (b ++ CRLF ++ R) := by simp
        rw [e, List.drop_left]
      simp only [hd]
      rw [findLine_recordTail (t ++ ['\r']) R v (by simp [ht]) H b.length b rfl (by omega) fuel _
        (by simp [CRLF]; omega)]
      congr 2
      omega

theorem body_length (rs : List (List Char)) (h : WF rs) : (body rs).length = 10 * rs.length := by
  induction rs with
  | nil => rfl
  | cons p rs ih =>
    have hp : p.length = 8 := h p (by simp)
    have := ih (fun q hq => h q (by simp [hq]))
    simp [body, CRLF, hp, this]
    omega

theorem encode_length (rs : List (List Char)) (h : WF rs) :
    (encode rs).length = 10 + 10 * rs.length := by
  simp [encode, HEADER, CRLF, body_length rs h]
  omega

theorem findLine_body (t : List Char) (ht : t.length = 8) (hLF : '\n' ∉ t) :
    ∀ (rs : List (List Char)), WF rs → ∀ (fuel pos : Nat), (body rs).length < fuel →
      findLine (t ++ ['\r']) fuel (body rs) pos = some (scanResult t rs pos) := by
  intro rs
  induction rs with
  | nil =>
    intro _ fuel pos hf
    cases fuel with
    | zero => simp at hf
    | succ fuel => simp [findLine, body, scanResult, firstIndex]
  | cons p rs ih =>
    intro h fuel pos hf
    have hp : p.length = 8 := h p (by simp)
    have hrs : WF rs := fun q hq => h q (by simp [hq])
    have := findLine_record t p (body rs) (scanResult t rs) ht hLF hp (ih hrs) fuel pos hf
    rw [body, this]
    by_cases hpt : p = t
    · simp [hpt, scanResult, firstIndex]
    · simp only [if_neg hpt, scanResult, firstIndex]
      cases hfi : firstIndex t rs with
      | none => simp; omega
      | some k => simp; omega

theorem doesUidExistLoop_eq (uid : List Char) :
    ∀ (fuel : Nat) (d : List Char) (pos : Nat),
      doesUidExistLoop uid fuel { data := d, pos := pos } =
        (findLine (uid ++ ['\r']) fuel (d.drop pos) pos).map
          (fun r => if r.1 then location r.2 else 0) := by
  intro fuel
  induction fuel with
  | zero => intro d pos; rfl
  | succ fuel ih =>
    intro d pos
    unfold doesUidExistLoop findLine
    simp only [File.available, File.readStringUntil, List.length_drop]
    by_cases ha : d.length - pos ≠ 0
    · rw [if_pos ha, if_pos ha]
      by_cases hm : (readUntil '\n' (List.drop pos d)).1 = uid ++ ['\r']
      · rw [if_pos hm, if_pos hm]; rfl
      · rw [if_neg hm, if_neg hm, ih, List.drop_drop]
    · rw [if_neg ha, if_neg ha]; rfl

theorem writeUidLoop_eq (uid : List Char) :
    ∀ (fuel : Nat) (d : List Char) (pos : Nat),
      writeUidLoop uid fuel { data := d, pos := pos } =
        (findLine (BLANK_UID ++ ['\r']) fuel (d.drop pos) pos).map
          (fun r => if r.1 then (File.seekCurBack { data := d, pos := r.2 } 10).2.println uid
            else File.println { data := d, pos := r.2 } uid) := by
  intro fuel
  induction fuel with
  | zero => intro d pos; rfl
  | succ fuel ih =>
    intro d pos
    unfold writeUidLoop findLine
    simp only [File.available, File.readStringUntil, List.length_drop]
    by_cases ha : d.length - pos ≠ 0
    · rw [if_pos ha, if_pos ha]
      by_cases hm : (readUntil '\n' (List.drop pos d)).1 = BLANK_UID ++ ['\r']
      · rw [if_pos hm, if_pos hm]; rfl
      · rw [if_neg hm, if_neg hm, ih, List.drop_drop]
    · rw [if_neg ha, if_neg ha]; rfl

/-- The fuel given to the loop of `doesUidExist` is enough. -/
theorem doesUidExistLoop_isSome (uid d : List Char) :
    (doesUidExistLoop uid (d.length + 1) { data := d, pos := 0 }).isSome := by
  rw [doesUidExistLoop_eq]
  have := findLine_isSome (uid ++ ['\r']) (d.length + 1) (d.drop 0) 0 (by simp)
  cases h : findLine (uid ++ ['\r']) (d.length + 1) (d.drop 0) 0 with
  | none => rw [h] at this; exact absurd this (by simp)
  | some r => rfl

/-- The fuel given to the loop of `writeUid` is enough. -/
theorem writeUidLoop_isSome (uid d : List Char) :
    (writeUidLoop uid (d.length + 1) { data := d, pos := 0 }).isSome := by
  rw [writeUidLoop_eq]
  have := findLine_isSome (BLANK_UID ++ ['\r']) (d.length + 1) (d.drop 0) 0 (by simp)
  cases h : findLine (BLANK_UID ++ ['\r']) (d.length + 1) (d.drop 0) 0 with
  | none => rw [h] at this; exact absurd this (by simp)
  | some r => rfl

/-- The scan of a ready store, for a target payload without line feed. -/
theorem findLine_encode (t : List Char) (ht : t.length = 8) (hLF : '\n' ∉ t)
    (rs : List (List Char)) (h : WF rs) :
    findLine (t ++ ['\r']) ((encode rs).length + 1) (encode rs) 0 =
      some (if HEADER = t then (true, 10) else scanResult t rs 10) := by
  have := findLine_record t HEADER (body rs) (scanResult t rs) ht hLF rfl
    (findLine_body t ht hLF rs h) ((encode rs).length + 1) 0 (by simp [encode])
  simpa [encode] using this

theorem doesUidExist_encode (u : List Char) (hu : u.length = 8) (hLF : '\n' ∉ u)
    (rs : List (List Char)) (h : WF rs) :
    doesUidExist u (some (encode rs)) =
      if HEADER = u then 0 else
        match firstIndex u rs with
        | some k => 10 + 10 * k
        | none => 0 := by
  unfold doesUidExist
  simp only [doesUidExistLoop_eq, List.drop_zero, findLine_encode u hu hLF rs h]
  by_cases hh : HEADER = u
  · simp [hh, location]
  · simp only [if_neg hh, scanResult]
    cases hfi : firstIndex u rs with
    | none => simp
    | some k =>
      have : location (10 + 10 * (k + 1)) = 10 + 10 * k := by
        unfold location; rw [if_pos (by omega)]; omega
      simp [this]

theorem doesUidExist_LF (u : List Char) (hLF : '\n' ∈ u) (fs : Option (List Char)) :
    doesUidExist u fs = 0 := by
  cases fs with
  | none => rfl
  | some d =>
    unfold doesUidExist
    simp only [doesUidExistLoop_eq, List.drop_zero]
    rw [findLine_target_LF (u ++ ['\r']) (by simp [hLF]) _ _ _ (by simp)]
    rfl

/-! ## Records and bytes -/

theorem firstIndex_some (t : List Char) :
    ∀ (rs : List (List Char)) (k : Nat), firstIndex t rs = some k →
      k < rs.length ∧ rs[k]? = some t ∧ ∀ j, j < k → rs[j]? ≠ some t := by
  intro rs
  induction rs with
  | nil => intro k h; simp [firstIndex] at h
  | cons p rs ih =>
    intro k h
    by_cases hpt : p = t
    · simp [firstIndex, hpt] at h
      subst h
      simp [hpt]
    · simp only [firstIndex, if_neg hpt] at h
      cases hfi : firstIndex t rs with
      | none => rw [hfi] at h; simp at h
      | some m =>
        rw [hfi] at h
        simp at h
        subst h
        obtain ⟨h1, h2, h3⟩ := ih m hfi
        refine ⟨by simp; omega, by simpa using h2, ?_⟩
        intro j hj
        cases j with
        | zero => simpa using hpt
        | succ j => simpa using h3 j (by omega)

theorem firstIndex_none (t : List Char) :
    ∀ (rs : List (List Char)), firstIndex t rs = none ↔ t ∉ rs := by
  intro rs
  induction rs with
  | nil => simp [firstIndex]
  | cons p rs ih =>
    by_cases hpt : p = t
    · simp [firstIndex, hpt]
    · simp [firstIndex, hpt, ih, Ne.symm hpt]

theorem WF_set (rs : List (List Char)) (h : WF rs) (k : Nat) (u : List Char)
    (hu : u.length = 8) : WF (rs.set k u) := by
  intro p hp
  rcases List.mem_or_eq_of_mem_set hp with h1 | h1
  · exact h p h1
  · rw [h1]; exact hu

theorem WF_append (rs : List (List Char)) (h : WF rs) (u : List Char) (hu : u.length = 8) :
    WF (rs ++ [u]) := by
  intro p hp
  rcases List.mem_append.mp hp with h1 | h1
  · exact h p h1
  · rw [List.mem_singleton.mp h1]; exact hu

theorem body_append (rs : List (List Char)) (u : List Char) :
    body (rs ++ [u]) = body rs ++ (u ++ CRLF) := by
  induction rs with
  | nil => simp [body]
  | cons p rs ih => simp [body, ih]

/-- Overwriting the 10 bytes of record `k` with a payload and CR LF. -/
theorem body_set (u : List Char) :
    ∀ (rs : List (List Char)) (k : Nat), WF rs → k < rs.length →
      (body rs).take (10 * k) ++ (u ++ CRLF) ++ (body rs).drop (10 * k + 10) =
        body (rs.set k u) := by
  intro rs
  induction rs with
  | nil => intro k _ hk; simp at hk
  | cons p rs ih =>
    intro k h hk
    have hp : (p ++ CRLF).length = 10 := by simp [CRLF, h p (by simp)]
    have hrs : WF rs := fun q hq => h q (by simp [hq])
    cases k with
    | zero =>
      have : List.drop 10 (p ++ CRLF ++ body rs) = body rs := by
        rw [← hp, List.drop_left]
      simp only [body, List.set_cons_zero, Nat.mul_zero, Nat.zero_add, List.take_zero,
        List.nil_append, this]
    | succ k =>
      have e1 : List.take (10 * (k + 1)) (p ++ CRLF ++ body rs) =
          (p ++ CRLF) ++ List.take (10 * k) (body rs) := by
        have : 10 * (k + 1) = (p ++ CRLF).length + 10 * k := by omega
        rw [this, List.take_append]
      have e2 : List.drop (10 * (k + 1) + 10) (p ++ CRLF ++ body rs) =
          List.drop (10 * k + 10) (body rs) := by
        have : 10 * (k + 1) + 10 = (p ++ CRLF).length + (10 * k + 10) := by omega
        rw [this, List.drop_append]
      have := ih k hrs (by simpa using hk)
      simp only [body, List.set_cons_succ, e1, e2, ← this]
      simp

theorem encode_set (u : List Char) (rs : List (List Char)) (k : Nat)
    (h : WF rs) (hk : k < rs.length) :
    (encode rs).take (10 + 10 * k) ++ (u ++ CRLF) ++ (encode rs).drop (10 + 10 * k + 10) =
      encode (rs.set k u) := by
  have hh : (HEADER ++ CRLF).length = 10 := rfl
  have e1 : List.take (10 + 10 * k) (HEADER ++ CRLF ++ body rs) =
      (HEADER ++ CRLF) ++ List.take (10 * k) (body rs) := by
    rw [← hh, List.take_append]
  have e2 : List.drop (10 + 10 * k + 10) (HEADER ++ CRLF ++ body rs) =
      List.drop (10 * k + 10) (body rs) := by
    have : 10 + 10 * k + 10 = (HEADER ++ CRLF).length + (10 * k + 10) := by rw [hh]; omega
    rw [this, List.drop_append]
  simp only [encode, e1, e2, ← body_set u rs k h hk]
  simp

theorem scrubPosition_encode (rs : List (List Char)) (h : WF rs) (k : Nat) (hk : k < rs.length) :
    scrubPosition (10 + 10 * k) (some (encode rs)) =
      (true, some (encode (rs.set k BLANK_UID))) := by
  have hl := encode_length rs h
  have e := encode_set BLANK_UID rs k h hk
  have hc : (BLANK_UID ++ CRLF).length = 10 := rfl
  have hle : 10 + 10 * k ≤ (encode rs).length := by omega
  simp only [scrubPosition, File.seekSet, if_pos hle, File.println, hc, if_true, e]

theorem writeUid_encode (u : List Char) (hu : u.length = 8) (rs : List (List Char))
    (h : WF rs) :
    writeUid u (some (encode rs)) = (true, some (encode (placeUid u rs))) := by
  have hl := encode_length rs h
  have hc : (u ++ CRLF).length = 10 := by simp [CRLF, hu]
  unfold writeUid
  simp only [writeUidLoop_eq, List.drop_zero,
    findLine_encode BLANK_UID rfl (by decide) rs h]
  rw [if_neg (by decide)]
  simp only [scanResult, placeUid]
  cases hfi : firstIndex BLANK_UID rs with
  | none =>
    have e1 : List.take (10 + 10 * rs.length) (encode rs) = encode rs := by
      rw [← hl, List.take_length]
    have e2 : List.drop (10 + 10 * rs.length + 10) (encode rs) = [] :=
      List.drop_eq_nil_of_le (by omega)
    simp only [Option.map, Option.getD, File.println, hc, e1, e2]
    simp [encode, body_append]
  | some k =>
    obtain ⟨hk, _, _⟩ := firstIndex_some BLANK_UID rs k hfi
    have e := encode_set u rs k h hk
    have e10 : 10 + 10 * (k + 1) - 10 = 10 + 10 * k := by omega
    have hle : 10 ≤ 10 + 10 * (k + 1) := by omega
    simp only [Option.map, Option.getD, File.seekCurBack, if_pos hle, File.println, hc,
      e10, e, if_true]

/-! ## The operations on a ready store -/

theorem doesUidExist_zero_or (u : List Char) (hu : u.length = 8) (rs : List (List Char))
    (h : WF rs) :
    doesUidExist u (some (encode rs)) = 0 ∨
      ∃ k, firstIndex u rs = some k ∧ doesUidExist u (some (encode rs)) = 10 + 10 * k := by
  by_cases hLF : '\n' ∈ u
  · left; exact doesUidExist_LF u hLF _
  · rw [doesUidExist_encode u hu hLF rs h]
    by_cases hh : HEADER = u
    · left; simp [hh]
    · rw [if_neg hh]
      cases hfi : firstIndex u rs with
      | none => left; rfl
      | some k => right; exact ⟨k, rfl, rfl⟩

theorem doesUidExist_notMem (u : List Char) (hu : u.length = 8) (rs : List (List Char))
    (h : WF rs) (hm : u ∉ rs) : doesUidExist u (some (encode rs)) = 0 := by
  rcases doesUidExist_zero_or u hu rs h with h0 | ⟨k, hk, _⟩
  · exact h0
  · rw [(firstIndex_none u rs).mpr hm] at hk
    exact absurd hk (by simp)

theorem doesUidExist_mem (u : List Char) (hu : u.length = 8) (hLF : '\n' ∉ u)
    (hH : u ≠ HEADER) (rs : List (List Char)) (h : WF rs) (hm : u ∈ rs) :
    ∃ k, firstIndex u rs = some k ∧ doesUidExist u (some (encode rs)) = 10 + 10 * k := by
  rw [doesUidExist_encode u hu hLF rs h, if_neg (Ne.symm hH)]
  cases hfi : firstIndex u rs with
  | none => exact absurd hm ((firstIndex_none u rs).mp hfi)
  | some k => exact ⟨k, rfl, rfl⟩

theorem placeUid_WF (u : List Char) (hu : u.length = 8) (rs : List (List Char)) (h : WF rs) :
    WF (placeUid u rs) := by
  unfold placeUid
  cases firstIndex BLANK_UID rs with
  | none => exact WF_append rs h u hu
  | some k => exact WF_set rs h k u hu

theorem placeUid_mem (u : List Char) (rs : List (List Char)) : u ∈ placeUid u rs := by
  unfold placeUid
  cases hfi : firstIndex BLANK_UID rs with
  | none => simp
  | some k =>
    obtain ⟨hk, _, _⟩ := firstIndex_some BLANK_UID rs k hfi
    exact List.mem_iff_getElem?.mpr ⟨k, by simp [List.getElem?_set, hk]⟩

theorem placeUid_length (u : List Char) (rs : List (List Char)) :
    (placeUid u rs).length = rs.length ∨ (placeUid u rs).length = rs.length + 1 := by
  unfold placeUid
  cases firstIndex BLANK_UID rs with
  | none => right; simp
  | some k => left; simp

theorem addUid_notMem (u : List Char) (hu : u.length = 8) (rs : List (List Char)) (h : WF rs)
    (hm : u ∉ rs) :
    addUid u (some (encode rs)) = (true, some (encode (placeUid u rs))) := by
  unfold addUid
  rw [if_pos (doesUidExist_notMem u hu rs h hm), writeUid_encode u hu rs h]

theorem addUid_mem (u : List Char) (hu : u.length = 8) (hLF : '\n' ∉ u)
    (hH : u ≠ HEADER) (rs : List (List Char)) (h : WF rs) (hm : u ∈ rs) :
    addUid u (some (encode rs)) = (false, some (encode rs)) := by
  obtain ⟨k, _, hk⟩ := doesUidExist_mem u hu hLF hH rs h hm
  unfold addUid
  rw [if_neg (by rw [hk]; omega)]

/-- Whatever the UID, `addUid` leaves a ready store whose records are the old ones, or the
old ones with the UID written by `writeUid`. -/
theorem addUid_cases (u : List Char) (hu : u.length = 8) (rs : List (List Char)) (h : WF rs) :
    addUid u (some (encode rs)) = (false, some (encode rs)) ∨
      addUid u (some (encode rs)) = (true, some (encode (placeUid u rs))) := by
  unfold addUid
  by_cases h0 : doesUidExist u (some (encode rs)) = 0
  · right; rw [if_pos h0, writeUid_encode u hu rs h]
  · left; rw [if_neg h0]

/-- One pass of the loop of `delUid` on a ready store, whatever the UID: the file stays a
ready store with as many records, each an old payload or a tombstone. -/
theorem delUidLoop_inv (u : List Char) (hu : u.length = 8) :
    ∀ (fuel : Nat) (rs : List (List Char)) (i : Nat), WF rs →
      ∃ rs', (delUidLoop u fuel (some (encode rs)) (doesUidExist u (some (encode rs))) i).2 =
          some (encode rs') ∧ WF rs' ∧ rs'.length = rs.length ∧
          ∀ p ∈ rs', p ∈ rs ∨ p = BLANK_UID := by
  intro fuel
  induction fuel with
  | zero =>
    intro rs i h
    refine ⟨rs, ?_, h, rfl, fun p hp => Or.inl hp⟩
    unfold delUidLoop
    split <;> rfl
  | succ fuel ih =>
    intro rs i h
    rcases doesUidExist_zero_or u hu rs h with h0 | ⟨k, hk, hloc⟩
    · refine ⟨rs, ?_, h, rfl, fun p hp => Or.inl hp⟩
      unfold delUidLoop
      rw [h0]; rfl
    · obtain ⟨hlt, _, _⟩ := firstIndex_some u rs k hk
      obtain ⟨rs', e, hwf, hlen, hmem⟩ :=
        ih (rs.set k BLANK_UID) (i + 1) (WF_set rs h k BLANK_UID rfl)
      refine ⟨rs', ?_, hwf, by simpa using hlen, ?_⟩
      · unfold delUidLoop
        rw [hloc, if_pos (by omega), scrubPosition_encode rs h k hlt]
        exact e
      · intro p hp
        rcases hmem p hp with h1 | h1
        · rcases List.mem_or_eq_of_mem_set h1 with h2 | h2
          · exact Or.inl h2
          · exact Or.inr h2
        · exact Or.inr h1

theorem scrubAll_notMem (u : List Char) (rs : List (List Char)) (hm : u ∉ rs) :
    scrubAll u rs = rs := by
  induction rs with
  | nil => rfl
  | cons p rs ih =>
    have hp : p ≠ u := fun h0 => hm (by simp [h0])
    have : u ∉ rs := fun h0 => hm (by simp [h0])
    simp only [scrubAll, List.map_cons, if_neg hp]
    congr 1
    exact ih this

theorem scrubAll_set (u : List Char) :
    ∀ (rs : List (List Char)) (k : Nat), rs[k]? = some u →
      scrubAll u (rs.set k BLANK_UID) = scrubAll u rs := by
  intro rs
  induction rs with
  | nil => intro k h; simp at h
  | cons p rs ih =>
    intro k h
    cases k with
    | zero =>
      simp at h
      subst h
      by_cases hb : BLANK_UID = p
      · simp [scrubAll, hb]
      · simp [scrubAll, hb]
    | succ k =>
      have := ih k (by simpa using h)
      simp only [scrubAll] at this
      simp [scrubAll, this]

theorem count_set (u : List Char) (hB : u ≠ BLANK_UID) :
    ∀ (rs : List (List Char)) (k : Nat), rs[k]? = some u →
      (rs.set k BLANK_UID).count u + 1 = rs.count u := by
  intro rs
  induction rs with
  | nil => intro k h; simp at h
  | cons p rs ih =>
    intro k h
    cases k with
    | zero =>
      simp at h
      subst h
      simp [List.count_cons, Ne.symm hB]
    | succ k =>
      have := ih k (by simpa using h)
      simp only [List.set_cons_succ, List.count_cons]
      omega

/-- The loop of `delUid` for a UID that is neither the header text nor the tombstone
pattern and has no line feed: it stops after one pass per copy of the UID. -/
theorem delUidLoop_good (u : List Char) (hu : u.length = 8) (hLF : '\n' ∉ u)
    (hH : u ≠ HEADER) (hB : u ≠ BLANK_UID) :
    ∀ (n : Nat) (rs : List (List Char)), WF rs → rs.count u = n → ∀ (fuel i : Nat), n ≤ fuel →
      delUidLoop u fuel (some (encode rs)) (doesUidExist u (some (encode rs))) i =
        (some (i + n), some (encode (scrubAll u rs))) := by
  intro n
  induction n with
  | zero =>
    intro rs h hc fuel i _
    have hm : u ∉ rs := List.count_eq_zero.mp hc
    rw [doesUidExist_notMem u hu rs h hm, scrubAll_notMem u rs hm]
    cases fuel <;> simp [delUidLoop]
  | succ n ih =>
    intro rs h hc fuel i hf
    have hm : u ∈ rs := List.count_pos_iff.mp (by omega)
    obtain ⟨k, hk, hloc⟩ := doesUidExist_mem u hu hLF hH rs h hm
    obtain ⟨hlt, hget, _⟩ := firstIndex_some u rs k hk
    cases fuel with
    | zero => omega
    | succ fuel =>
      unfold delUidLoop
      rw [hloc, if_pos (by omega), scrubPosition_encode rs h k hlt]
      have hcs := count_set u hB rs k hget
      rw [ih (rs.set k BLANK_UID) (WF_set rs h k BLANK_UID rfl) (by omega) fuel (i + 1)
        (by omega), scrubAll_set u rs k hget]
      congr 2
      omega

theorem body_record :
    ∀ (rs : List (List Char)) (k : Nat) (p : List Char), WF rs → rs[k]? = some p →
      ((body rs).drop (10 * k)).take 10 = p ++ CRLF := by
  intro rs
  induction rs with
  | nil => intro k p _ hk; simp at hk
  | cons q rs ih =>
    intro k p h hk
    have hq : (q ++ CRLF).length = 10 := by simp [CRLF, h q (by simp)]
    have hrs : WF rs := fun r hr => h r (by simp [hr])
    cases k with
    | zero =>
      simp at hk
      subst hk
      simp only [body, Nat.mul_zero, List.drop_zero]
      rw [← hq, List.take_left]
    | succ k =>
      have e : List.drop (10 * (k + 1)) (q ++ CRLF ++ body rs) = List.drop (10 * k) (body rs) := by
        have : 10 * (k + 1) = (q ++ CRLF).length + 10 * k := by omega
        rw [this, List.drop_append]
      rw [body, e]
      exact ih k p hrs (by simpa using hk)

/-- The 10 bytes at the offset of record `k` are its payload and CR LF. -/
theorem encode_record (rs : List (List Char)) (k : Nat) (p : List Char) (h : WF rs)
    (hk : rs[k]? = some p) : ((encode rs).drop (10 + 10 * k)).take 10 = p ++ CRLF := by
  have hh : (HEADER ++ CRLF).length = 10 := rfl
  have e : List.drop (10 + 10 * k) (HEADER ++ CRLF ++ body rs) = List.drop (10 * k) (body rs) := by
    rw [← hh, List.drop_append]
  rw [encode, e]
  exact body_record rs k p h hk

theorem encode_payload (rs : List (List Char)) (k : Nat) (p : List Char) (h : WF rs)
    (hk : rs[k]? = some p) : ((encode rs).drop (10 + 10 * k)).take 8 = p := by
  have hp : p.length = 8 := h p (List.mem_iff_getElem?.mpr ⟨k, hk⟩)
  have := congrArg (List.take 8) (encode_record rs k p h hk)
  rw [List.take_take] at this
  rw [show min 8 10 = 8 from rfl] at this
  rw [this, ← hp, List.take_left]

theorem scrubAll_WF (u : List Char) (rs : List (List Char)) (h : WF rs) :
    WF (scrubAll u rs) := by
  intro p hp
  obtain ⟨q, hq, rfl⟩ := List.mem_map.mp hp
  by_cases hqu : q = u
  · simp [hqu, BLANK_UID]
  · simpa [hqu] using h q hq

theorem scrubAll_get (u : List Char) (rs : List (List Char)) (j : Nat) (p : List Char)
    (hj : rs[j]? = some p) :
    (scrubAll u rs)[j]? = some (if p = u then BLANK_UID else p) := by
  simp [scrubAll, List.getElem?_map, hj]

theorem scrubAll_absent (u : List Char) (hB : u ≠ BLANK_UID) (rs : List (List Char)) :
    u ∉ scrubAll u rs := by
  intro hm
  obtain ⟨q, _, hq⟩ := List.mem_map.mp hm
  by_cases hqu : q = u
  · rw [if_pos hqu] at hq; exact hB hq.symm
  · rw [if_neg hqu] at hq; exact hqu hq

theorem set_self (a : List Char) :
    ∀ (rs : List (List Char)) (k : Nat), rs[k]? = some a → rs.set k a = rs := by
  intro rs
  induction rs with
  | nil => intro k h; simp at h
  | cons p rs ih =>
    intro k h
    cases k with
    | zero => simp at h; simp [h]
    | succ k => simp [ih k (by simpa using h)]

theorem delUid_zero (fuel : Nat) (u : List Char) (fs : Option (List Char))
    (h0 : doesUidExist u fs = 0) : delUid fuel u fs = (some 0, fs) := by
  unfold delUid
  rw [h0]
  cases fuel <;> simp [delUidLoop]

/-- With a tombstone in the store, the loop of `delUid` for the tombstone pattern keeps
finding the same record: it never stops, and the file is not changed. -/
theorem delUid_blank_diverges (rs : List (List Char)) (h : WF rs) (hm : BLANK_UID ∈ rs)
    (fuel : Nat) : delUid fuel BLANK_UID (some (encode rs)) = (none, some (encode rs)) := by
  obtain ⟨k, hk, hloc⟩ := doesUidExist_mem BLANK_UID rfl (by decide) (by decide) rs h hm
  obtain ⟨hlt, hget, _⟩ := firstIndex_some BLANK_UID rs k hk
  have key : ∀ (fuel i : Nat), delUidLoop BLANK_UID fuel (some (encode rs)) (10 + 10 * k) i =
      (none, some (encode rs)) := by
    intro fuel
    induction fuel with
    | zero => intro i; simp [delUidLoop]
    | succ fuel ih =>
      intro i
      unfold delUidLoop
      rw [if_pos (by omega), scrubPosition_encode rs h k hlt, set_self BLANK_UID rs k hget, hloc]
      exact ih (i + 1)
  unfold delUid
  rw [hloc]
  exact key fuel 0

/-- For a UID other than the tombstone pattern the loop of `delUid` stops within one pass
per record. -/
theorem delUid_terminates (u : List Char) (hu : u.length = 8) (hB : u ≠ BLANK_UID)
    (rs : List (List Char)) (h : WF rs) (fuel : Nat) (hf : rs.length ≤ fuel) :
    ∃ n, (delUid fuel u (some (encode rs))).1 = some n := by
  by_cases hLF : '\n' ∈ u
  · exact ⟨0, by rw [delUid_zero fuel u _ (doesUidExist_LF u hLF _)]⟩
  · by_cases hH : u = HEADER
    · have h0 : doesUidExist u (some (encode rs)) = 0 := by
        rw [doesUidExist_encode u hu hLF rs h, if_pos hH.symm]
      exact ⟨0, by rw [delUid_zero fuel u _ h0]⟩
    · refine ⟨0 + rs.count u, ?_⟩
      unfold delUid
      rw [delUidLoop_good u hu hLF hH hB (rs.count u) rs h rfl fuel 0
        (le_trans (List.count_le_length u rs) hf)]

theorem liveCount_cons (u p : List Char) (rs : List (List Char)) :
    liveCount u (p :: rs) = liveCount u rs + (if p = u ∧ p ≠ BLANK_UID then 1 else 0) := by
  unfold liveCount
  rw [List.countP_cons]
  by_cases h1 : p = u <;> by_cases h2 : p = BLANK_UID <;> simp [h1, h2]

theorem liveCount_absent (u : List Char) :
    ∀ (rs : List (List Char)), u ∉ rs → liveCount u rs = 0 := by
  intro rs
  induction rs with
  | nil => intro _; rfl
  | cons p rs ih =>
    intro hm
    have hp : p ≠ u := fun h0 => hm (by simp [h0])
    have hrs : u ∉ rs := fun h0 => hm (by simp [h0])
    rw [liveCount_cons, ih hrs, if_neg (fun h0 => hp h0.1)]

theorem liveCount_append (u : List Char) (hB : u ≠ BLANK_UID) :
    ∀ (rs : List (List Char)), liveCount u (rs ++ [u]) = liveCount u rs + 1 := by
  intro rs
  induction rs with
  | nil => rw [List.nil_append, liveCount_cons, if_pos ⟨rfl, hB⟩]
  | cons p rs ih => rw [List.cons_append, liveCount_cons, liveCount_cons, ih]; omega

theorem liveCount_set (u : List Char) (hB : u ≠ BLANK_UID) :
    ∀ (rs : List (List Char)) (k : Nat), k < rs.length → u ∉ rs →
      liveCount u (rs.set k u) = 1 := by
  intro rs
  induction rs with
  | nil => intro k hk; simp at hk
  | cons p rs ih =>
    intro k hk hm
    have hp : p ≠ u := fun h0 => hm (by simp [h0])
    have hrs : u ∉ rs := fun h0 => hm (by simp [h0])
    cases k with
    | zero =>
      rw [List.set_cons_zero, liveCount_cons, liveCount_absent u rs hrs, if_pos ⟨rfl, hB⟩]
    | succ k =>
      rw [List.set_cons_succ, liveCount_cons, ih k (by simpa using hk) hrs,
        if_neg (fun h0 => hp h0.1)]

theorem liveCount_placeUid (u : List Char) (hB : u ≠ BLANK_UID) (rs : List (List Char))
    (hm : u ∉ rs) : liveCount u (placeUid u rs) = 1 := by
  unfold placeUid
  cases hfi : firstIndex BLANK_UID rs with
  | none => simp only []; rw [liveCount_append u hB, liveCount_absent u rs hm]
  | some k =>
    obtain ⟨hk, _, _⟩ := firstIndex_some BLANK_UID rs k hfi
    exact liveCount_set u hB rs k hk hm

theorem NoDupLive_append (rs : List (List Char)) (u : List Char) (hnd : NoDupLive rs)
    (hm : u ∉ rs) : NoDupLive (rs ++ [u]) := by
  intro i j p hij hi hj
  have hjl : j < (rs ++ [u]).length := by
    by_contra hc
    rw [List.getElem?_eq_none (by omega)] at hj
    exact absurd hj (by simp)
  have hil : i < rs.length := by simp at hjl; omega
  rw [List.getElem?_append_left hil] at hi
  by_cases hjr : j < rs.length
  · rw [List.getElem?_append_left hjr] at hj
    exact hnd i j p hij hi hj
  · have hje : j = rs.length := by simp at hjl; omega
    rw [hje, List.getElem?_append_right (le_refl _)] at hj
    simp at hj
    exact absurd (List.mem_iff_getElem?.mpr ⟨i, by rw [hi, hj]⟩) hm

theorem NoDupLive_set (rs : List (List Char)) (u : List Char) (k : Nat) (hnd : NoDupLive rs)
    (hm : u ∉ rs) : NoDupLive (rs.set k u) := by
  intro i j p hij hi hj
  rw [List.getElem?_set] at hi hj
  by_cases hki : k = i
  · by_cases hkj : k = j
    · omega
    · rw [if_neg hkj] at hj
      rw [if_pos hki] at hi
      split at hi
      · have hpu : u = p := by simpa using hi
        exact absurd (List.mem_iff_getElem?.mpr ⟨j, by rw [hj, hpu]⟩) hm
      · exact absurd hi (by simp)
  · rw [if_neg hki] at hi
    by_cases hkj : k = j
    · rw [if_pos hkj] at hj
      split at hj
      · have hpu : u = p := by simpa using hj
        exact absurd (List.mem_iff_getElem?.mpr ⟨i, by rw [hi, hpu]⟩) hm
      · exact absurd hj (by simp)
    · rw [if_neg hkj] at hj
      exact hnd i j p hij hi hj

theorem NoDupLive_placeUid (rs : List (List Char)) (u : List Char) (hnd : NoDupLive rs)
    (hm : u ∉ rs) : NoDupLive (placeUid u rs) := by
  unfold placeUid
  cases firstIndex BLANK_UID rs with
  | none => exact NoDupLive_append rs u hnd hm
  | some k => exact NoDupLive_set rs u k hnd hm

theorem NoDupLive_scrubAll (rs : List (List Char)) (u : List Char) (hnd : NoDupLive rs) :
    NoDupLive (scrubAll u rs) := by
  intro i j p hij hi hj
  simp only [scrubAll, List.getElem?_map] at hi hj
  cases hri : rs[i]? with
  | none => rw [hri] at hi; exact absurd hi (by simp)
  | some a =>
    cases hrj : rs[j]? with
    | none => rw [hrj] at hj; exact absurd hj (by simp)
    | some b =>
      rw [hri] at hi
      rw [hrj] at hj
      simp only [Option.map_some', Option.some.injEq] at hi hj
      by_cases ha : a = u
      · rw [if_pos ha] at hi; exact hi.symm
      · rw [if_neg ha] at hi
        by_cases hb : b = u
        · rw [if_pos hb] at hj; exact hj.symm
        · rw [if_neg hb] at hj
          exact hnd i j p hij (by rw [hri, hi]) (by rw [hrj, hj])

/-- A run of calls from a ready store without duplicate live records. -/
theorem runOps_inv :
    ∀ (ops : List Op) (rs : List (List Char)) (fuel : Nat), WF rs → NoDupLive rs →
      (∀ op ∈ ops, op.uid.length = 8 ∧ '\n' ∉ op.uid ∧ op.uid ≠ HEADER) →
      rs.length + ops.length ≤ fuel →
      (∃ rs', runOps fuel ops (some (encode rs)) = some (some (encode rs')) ∧
          WF rs' ∧ NoDupLive rs') ∨
        (runOps fuel ops (some (encode rs)) = none ∧ Op.del BLANK_UID ∈ ops) := by
  intro ops
  induction ops with
  | nil => intro rs fuel h hnd _ _; exact Or.inl ⟨rs, rfl, h, hnd⟩
  | cons op ops ih =>
    intro rs fuel h hnd hv hf
    have hvt : ∀ o ∈ ops, o.uid.length = 8 ∧ '\n' ∉ o.uid ∧ o.uid ≠ HEADER :=
      fun o ho => hv o (by simp [ho])
    have lift : ∀ rs1 : List (List Char),
        ((∃ rs', runOps fuel ops (some (encode rs1)) = some (some (encode rs')) ∧
            WF rs' ∧ NoDupLive rs') ∨
          (runOps fuel ops (some (encode rs1)) = none ∧ Op.del BLANK_UID ∈ ops)) →
        ((∃ rs', runOps fuel ops (some (encode rs1)) = some (some (encode rs')) ∧
            WF rs' ∧ NoDupLive rs') ∨
          (runOps fuel ops (some (encode rs1)) = none ∧ Op.del BLANK_UID ∈ op :: ops)) := by
      intro rs1 hr
      rcases hr with hr | ⟨hr1, hr2⟩
      · exact Or.inl hr
      · exact Or.inr ⟨hr1, by simp [hr2]⟩
    simp only [List.length_cons] at hf
    cases op with
    | add u =>
      obtain ⟨hu, hLF, hH⟩ : u.length = 8 ∧ '\n' ∉ u ∧ u ≠ HEADER := hv (Op.add u) (by simp)
      by_cases hm : u ∈ rs
      · simp only [runOps, addUid_mem u hu hLF hH rs h hm]
        exact lift rs (ih rs fuel h hnd hvt (by omega))
      · simp only [runOps, addUid_notMem u hu rs h hm]
        refine lift _ (ih (placeUid u rs) fuel (placeUid_WF u hu rs h)
          (NoDupLive_placeUid rs u hnd hm) hvt ?_)
        rcases placeUid_length u rs with e | e <;> omega
    | del u =>
      obtain ⟨hu, hLF, hH⟩ : u.length = 8 ∧ '\n' ∉ u ∧ u ≠ HEADER := hv (Op.del u) (by simp)
      by_cases hB : u = BLANK_UID
      · subst hB
        by_cases hm : BLANK_UID ∈ rs
        · right
          simp only [runOps, delUid_blank_diverges rs h hm fuel]
          exact ⟨trivial, by simp⟩
        · simp only [runOps, delUid_zero fuel BLANK_UID _ (doesUidExist_notMem _ hu rs h hm)]
          exact lift rs (ih rs fuel h hnd hvt (by omega))
      · have e : delUid fuel u (some (encode rs)) =
            (some (0 + rs.count u), some (encode (scrubAll u rs))) :=
          delUidLoop_good u hu hLF hH hB (rs.count u) rs h rfl fuel 0
            (le_trans (List.count_le_length u rs) (by omega))
        simp only [runOps, e]
        exact lift _ (ih (scrubAll u rs) fuel (scrubAll_WF u rs h)
          (NoDupLive_scrubAll rs u hnd) hvt (by simp [scrubAll]; omega))

theorem FormatRecs_WF (rs : List (List Char)) (h : FormatRecs rs) : WF rs :=
  fun p hp => (h p hp).1

theorem FormatRecs_placeUid (rs : List (List Char)) (u : List Char) (h : FormatRecs rs)
    (hu : u.length = 8 ∧ '\r' ∉ u ∧ '\n' ∉ u) : FormatRecs (placeUid u rs) := by
  unfold placeUid
  intro p hp
  cases hfi : firstIndex BLANK_UID rs with
  | none =>
    rw [hfi] at hp
    rcases List.mem_append.mp hp with h1 | h1
    · exact h p h1
    · rw [List.mem_singleton.mp h1]; exact hu
  | some k =>
    rw [hfi] at hp
    rcases List.mem_or_eq_of_mem_set hp with h1 | h1
    · exact h p h1
    · rw [h1]; exact hu

/-! ## Frame lemmas -/

theorem firstIndex_set_other (v : List Char) :
    ∀ (rs : List (List Char)) (k : Nat) (a w : List Char), rs[k]? = some a → a ≠ v → w ≠ v →
      firstIndex v (rs.set k w) = firstIndex v rs := by
  intro rs
  induction rs with
  | nil => intro k a w h; simp at h
  | cons p rs ih =>
    intro k a w h ha hw
    cases k with
    | zero =>
      simp at h
      subst h
      simp only [List.set_cons_zero, firstIndex, if_neg ha, if_neg hw]
    | succ k =>
      simp only [List.set_cons_succ, firstIndex, ih k a w (by simpa using h) ha hw]

theorem firstIndex_append_other (v w : List Char) (hw : w ≠ v) :
    ∀ (rs : List (List Char)), firstIndex v (rs ++ [w]) = firstIndex v rs := by
  intro rs
  induction rs with
  | nil => simp [firstIndex, hw]
  | cons p rs ih =>
    rw [List.cons_append]
    show (if p = v then some 0 else (firstIndex v (rs ++ [w])).map (· + 1)) =
      if p = v then some 0 else (firstIndex v rs).map (· + 1)
    rw [ih]

theorem firstIndex_append_new (u : List Char) :
    ∀ (rs : List (List Char)), u ∉ rs → firstIndex u (rs ++ [u]) = some rs.length := by
  intro rs
  induction rs with
  | nil => intro _; simp [firstIndex]
  | cons p rs ih =>
    intro hm
    have hp : p ≠ u := fun h0 => hm (by simp [h0])
    have hrs : u ∉ rs := fun h0 => hm (by simp [h0])
    rw [List.cons_append]
    show (if p = u then some 0 else (firstIndex u (rs ++ [u])).map (· + 1)) =
      some (p :: rs).length
    rw [if_neg hp, ih hrs]
    rfl

theorem firstIndex_placeUid_other (u v : List Char) (huv : u ≠ v) (hv : v ≠ BLANK_UID)
    (rs : List (List Char)) : firstIndex v (placeUid u rs) = firstIndex v rs := by
  unfold placeUid
  cases hfi : firstIndex BLANK_UID rs with
  | none => exact firstIndex_append_other v u huv rs
  | some k =>
    obtain ⟨_, hget, _⟩ := firstIndex_some BLANK_UID rs k hfi
    exact firstIndex_set_other v rs k BLANK_UID u hget (Ne.symm hv) huv

/-- On ready stores the result of `doesUidExist` depends on the records only through the
index of the first record with the UID. -/
theorem doesUidExist_congr (v : List Char) (hv : v.length = 8) (rs rs' : List (List Char))
    (h : WF rs) (h' : WF rs') (e : firstIndex v rs' = firstIndex v rs) :
    doesUidExist v (some (encode rs')) = doesUidExist v (some (encode rs)) := by
  by_cases hLF : '\n' ∈ v
  · rw [doesUidExist_LF v hLF, doesUidExist_LF v hLF]
  · rw [doesUidExist_encode v hv hLF rs h, doesUidExist_encode v hv hLF rs' h', e]

/-- The passes of the loop of `delUid u` leave the first record of any other live UID
where it is. -/
theorem delUidLoop_frame (u v : List Char) (hu : u.length = 8) (huv : u ≠ v)
    (hv : v ≠ BLANK_UID) :
    ∀ (fuel : Nat) (rs : List (List Char)) (i : Nat), WF rs →
      ∃ rs', (delUidLoop u fuel (some (encode rs)) (doesUidExist u (some (encode rs))) i).2 =
          some (encode rs') ∧ WF rs' ∧ firstIndex v rs' = firstIndex v rs := by
  intro fuel
  induction fuel with
  | zero =>
    intro rs i h
    refine ⟨rs, ?_, h, rfl⟩
    unfold delUidLoop
    split <;> rfl
  | succ fuel ih =>
    intro rs i h
    rcases doesUidExist_zero_or u hu rs h with h0 | ⟨k, hk, hloc⟩
    · refine ⟨rs, ?_, h, rfl⟩
      unfold delUidLoop
      rw [h0]; rfl
    · obtain ⟨hlt, hget, _⟩ := firstIndex_some u rs k hk
      obtain ⟨rs', e, hwf, hfi⟩ :=
        ih (rs.set k BLANK_UID) (i + 1) (WF_set rs h k BLANK_UID rfl)
      refine ⟨rs', ?_, hwf, ?_⟩
      · unfold delUidLoop
        rw [hloc, if_pos (by omega), scrubPosition_encode rs h k hlt]
        exact e
      · rw [hfi]
        exact firstIndex_set_other v rs k u BLANK_UID hget huv (Ne.symm hv)

/-- The count returned by the loop of `delUid` is at least the count it was entered
with. -/
theorem delUidLoop_count_ge (u : List Char) :
    ∀ (fuel : Nat) (fs : Option (List Char)) (loc i n : Nat),
      (delUidLoop u fuel fs loc i).1 = some n → i ≤ n := by
  intro fuel
  induction fuel with
  | zero =>
    intro fs loc i n hn
    unfold delUidLoop at hn
    by_cases hl : loc ≠ 0
    · rw [if_pos hl] at hn; exact absurd hn (by simp)
    · rw [if_neg hl] at hn
      have : i = n := by simpa using hn
      omega
  | succ fuel ih =>
    intro fs loc i n hn
    unfold delUidLoop at hn
    by_cases hl : loc ≠ 0
    · rw [if_pos hl] at hn
      have := ih _ _ _ _ hn
      omega
    · rw [if_neg hl] at hn
      have : i = n := by simpa using hn
      omega

/-- When `delUid` returns 0 it has found nothing and has not touched the file. -/
theorem delUid_zero_unchanged (fuel : Nat) (u : List Char) (fs : Option (List Char))
    (h0 : (delUid fuel u fs).1 = some 0) : (delUid fuel u fs).2 = fs := by
  by_cases hl : doesUidExist u fs = 0
  · rw [delUid_zero fuel u fs hl]
  · unfold delUid at h0
    cases fuel with
    | zero =>
      unfold delUidLoop at h0
      rw [if_pos hl] at h0
      exact absurd h0 (by simp)
    | succ fuel =>
      unfold delUidLoop at h0
      rw [if_pos hl] at h0
      have := delUidLoop_count_ge u _ _ _ _ _ h0
      omega

/-- Writing 10 bytes over the 10 bytes at `pos`: what is at `pos` afterwards, and what is
kept. -/
theorem overwrite_bytes (d m : List Char) (pos : Nat) (hm : m.length = 10)
    (hp : pos + 10 ≤ d.length) :
    (d.take pos ++ m ++ d.drop (pos + 10)).length = d.length ∧
      ((d.take pos ++ m ++ d.drop (pos + 10)).drop pos).take 10 = m ∧
      (d.take pos ++ m ++ d.drop (pos + 10)).take pos = d.take pos ∧
      (d.take pos ++ m ++ d.drop (pos + 10)).drop (pos + 10) = d.drop (pos + 10) := by
  have ht : (d.take pos).length = pos := by rw [List.length_take]; omega
  refine ⟨?_, ?_, ?_, ?_⟩
  · simp only [List.length_append, ht, hm, List.length_drop]; omega
  · rw [List.append_assoc, List.drop_left' ht, ← hm, List.take_left]
  · rw [List.append_assoc, List.take_left' ht]
  · have : (d.take pos ++ m).length = pos + 10 := by rw [List.length_append, ht, hm]
    rw [List.drop_left' this]

/-- On the header-only file `doesUidExist` returns 0 whatever it is asked for: the one
line either differs, or matches with `location 10 = 0`. -/
theorem doesUidExist_headerOnly (u : List Char) :
    doesUidExist u (some (HEADER ++ CRLF)) = 0 := by
  have hr : readUntil '\n' (HEADER ++ CRLF) = ("AUTH UID\r".toList, 10) := by decide
  have hd : List.drop 10 (HEADER ++ CRLF) = [] := by decide
  have hl : (HEADER ++ CRLF).length + 1 = 9 + 1 + 1 := by decide
  unfold doesUidExist
  simp only [doesUidExistLoop_eq, List.drop_zero]
  rw [hl]
  unfold findLine
  rw [if_pos (by decide), hr]
  by_cases hm : "AUTH UID\r".toList = u ++ ['\r']
  · rw [if_pos hm]; rfl
  · rw [if_neg hm]
    simp only [hd]
    unfold findLine
    rfl

theorem record_split (X p : List Char) (hX : X.take 10 = p ++ CRLF) (hp : p.length = 8) :
    X.take 8 = p ∧ (X.drop 8).take 2 = CRLF := by
  have e : X = p ++ (CRLF ++ X.drop 10) := by
    rw [← List.append_assoc, ← hX, List.take_append_drop]
  constructor
  · rw [e, ← hp, List.take_left]
  · rw [e, ← hp, List.drop_left]
    rfl

theorem delUid_terminates_count (u : List Char) (hu : u.length = 8) (rs : List (List Char))
    (h : WF rs) (hB : u ≠ BLANK_UID ∨ BLANK_UID ∉ rs) (fuel : Nat) (hf : rs.length ≤ fuel) :
    ∃ n, (delUid fuel u (some (encode rs))).1 = some n ∧ n ≤ rs.count u := by
  by_cases hLF : '\n' ∈ u
  · exact ⟨0, by rw [delUid_zero fuel u _ (doesUidExist_LF u hLF _)], Nat.zero_le _⟩
  · by_cases hH : u = HEADER
    · have h0 : doesUidExist u (some (encode rs)) = 0 := by
        rw [doesUidExist_encode u hu hLF rs h, if_pos hH.symm]
      exact ⟨0, by rw [delUid_zero fuel u _ h0], Nat.zero_le _⟩
    · by_cases hb : u = BLANK_UID
      · have hm : u ∉ rs := by
          rcases hB with h1 | h1
          · exact absurd hb h1
          · rw [hb]; exact h1
        exact ⟨0, by rw [delUid_zero fuel u _ (doesUidExist_notMem u hu rs h hm)],
          Nat.zero_le _⟩
      · refine ⟨0 + rs.count u, ?_, by omega⟩
        unfold delUid
        rw [delUidLoop_good u hu hLF hH hb (rs.count u) rs h rfl fuel 0
          (le_trans (List.count_le_length u rs) hf)]

/-! ## The claims -/

/-- C1, as amended: for every ready store and every 8-character UID `u` that has no line
feed, is not the header text `AUTH UID` and is not the payload of any record, `addUid u`
returns true and `doesUidExist u` then returns an offset of at least 10. -/
theorem C1_add_then_exists (rs : List (List Char)) (u : List Char) (h : WF rs)
    (hu : u.length = 8) (hLF : '\n' ∉ u) (hH : u ≠ HEADER) (hm : u ∉ rs) :
    (addUid u (some (encode rs))).1 = true ∧
      10 ≤ doesUidExist u (addUid u (some (encode rs))).2 := by
  rw [addUid_notMem u hu rs h hm]
  refine ⟨rfl, ?_⟩
  obtain ⟨k, _, hk⟩ := doesUidExist_mem u hu hLF hH (placeUid u rs) (placeUid_WF u hu rs h)
    (placeUid_mem u rs)
  show 10 ≤ doesUidExist u (some (encode (placeUid u rs)))
  rw [hk]
  omega

theorem C1_add_then_exists_witness :
    WF ["ABCDEF01".toList] ∧ "12345678".toList.length = 8 ∧
      (addUid "12345678".toList (some (encode ["ABCDEF01".toList]))).1 = true ∧
      10 ≤ doesUidExist "12345678".toList
        (addUid "12345678".toList (some (encode ["ABCDEF01".toList]))).2 :=
  ⟨by decide, by decide,
    C1_add_then_exists ["ABCDEF01".toList] "12345678".toList (by decide) (by decide)
      (by decide) (by decide) (by decide)⟩

/-- C1 as stated fails: on the header-only store the 8-character UID `AUTH UID` is added
(`addUid` returns true) and `doesUidExist` still returns 0 afterwards, because the scan
matches the header line first; a UID with a line feed is added and never found either. -/
theorem C1_counterexample :
    (WF [] ∧ "AUTH UID".toList.length = 8 ∧ "AUTH UID".toList ∉ ([] : List (List Char)) ∧
      (addUid "AUTH UID".toList (some (encode []))).1 = true ∧
      doesUidExist "AUTH UID".toList (addUid "AUTH UID".toList (some (encode []))).2 = 0) ∧
    ("1234\n678".toList.length = 8 ∧ "1234\n678".toList ∉ ([] : List (List Char)) ∧
      (addUid "1234\n678".toList (some (encode []))).1 = true ∧
      doesUidExist "1234\n678".toList (addUid "1234\n678".toList (some (encode []))).2 = 0) := by
  decide

/-- C2, as amended: for every ready store and every 8-character UID `u` that has no line
feed and is not the header text `AUTH UID`, `doesUidExist u` returns 0 exactly when no
record has payload `u`, and any other value it returns is at least 10. -/
theorem C2_notFound_iff_absent (rs : List (List Char)) (u : List Char) (h : WF rs)
    (hu : u.length = 8) (hLF : '\n' ∉ u) (hH : u ≠ HEADER) :
    (doesUidExist u (some (encode rs)) = 0 ↔ u ∉ rs) ∧
      (doesUidExist u (some (encode rs)) = 0 ∨ 10 ≤ doesUidExist u (some (encode rs))) := by
  by_cases hm : u ∈ rs
  · obtain ⟨k, _, hk⟩ := doesUidExist_mem u hu hLF hH rs h hm
    rw [hk]
    exact ⟨⟨fun h0 => by omega, fun h0 => absurd hm h0⟩, Or.inr (by omega)⟩
  · rw [doesUidExist_notMem u hu rs h hm]
    exact ⟨⟨fun _ => hm, fun _ => rfl⟩, Or.inl rfl⟩

theorem C2_notFound_iff_absent_witness :
    WF ["ABCDEF01".toList, "12345678".toList] ∧
      (doesUidExist "12345678".toList
          (some (encode ["ABCDEF01".toList, "12345678".toList])) = 0 ↔
        "12345678".toList ∉ ["ABCDEF01".toList, "12345678".toList]) ∧
      (doesUidExist "12345678".toList
          (some (encode ["ABCDEF01".toList, "12345678".toList])) = 0 ∨
        10 ≤ doesUidExist "12345678".toList
          (some (encode ["ABCDEF01".toList, "12345678".toList]))) :=
  ⟨by decide,
    C2_notFound_iff_absent ["ABCDEF01".toList, "12345678".toList] "12345678".toList
      (by decide) (by decide) (by decide) (by decide)⟩

/-- C2 as stated fails: the header line is matched as data. With a record of payload
`AUTH UID` in the store, `doesUidExist` stops at the header line and returns 0; a record
whose payload has a line feed is never matched either. -/
theorem C2_counterexample :
    (WF ["AUTH UID".toList] ∧ "AUTH UID".toList.length = 8 ∧
      "AUTH UID".toList ∈ ["AUTH UID".toList] ∧
      doesUidExist "AUTH UID".toList (some (encode ["AUTH UID".toList])) = 0) ∧
    (WF ["1234\n678".toList] ∧ "1234\n678".toList.length = 8 ∧
      "1234\n678".toList ∈ ["1234\n678".toList] ∧
      doesUidExist "1234\n678".toList (some (encode ["1234\n678".toList])) = 0) := by
  decide

/-- C3: for every ready store and every 8-character UID `u`, a non-zero result `p` of
`doesUidExist u` is `10 + 10 * k` for the index `k` of the first record with payload `u`;
`p` is at least 10, a multiple of 10, `p + 10` is within the file, and the 8 bytes at `p`
are `u`. -/
theorem C3_found_offset (rs : List (List Char)) (u : List Char) (p : Nat) (h : WF rs)
    (hu : u.length = 8) (hp : doesUidExist u (some (encode rs)) = p) (hne : p ≠ 0) :
    ∃ k, p = 10 + 10 * k ∧ rs[k]? = some u ∧ (∀ j, j < k → rs[j]? ≠ some u) ∧
      10 ≤ p ∧ p % 10 = 0 ∧ p + 10 ≤ (encode rs).length ∧
      ((encode rs).drop p).take 8 = u := by
  rcases doesUidExist_zero_or u hu rs h with h0 | ⟨k, hk, hloc⟩
  · exact absurd (hp ▸ h0) hne
  · obtain ⟨hlt, hget, hfirst⟩ := firstIndex_some u rs k hk
    have hpk : p = 10 + 10 * k := by rw [← hp, hloc]
    refine ⟨k, hpk, hget, hfirst, by omega, by omega, ?_, ?_⟩
    · rw [encode_length rs h]; omega
    · rw [hpk]; exact encode_payload rs k u h hget

theorem C3_found_offset_witness :
    WF ["ABCDEF01".toList, "12345678".toList, "12345678".toList] ∧
      ∃ k, 20 = 10 + 10 * k ∧
        ["ABCDEF01".toList, "12345678".toList, "12345678".toList][k]? =
          some "12345678".toList ∧
        (∀ j, j < k → ["ABCDEF01".toList, "12345678".toList, "12345678".toList][j]? ≠
          some "12345678".toList) ∧
        10 ≤ 20 ∧ 20 % 10 = 0 ∧
        20 + 10 ≤ (encode ["ABCDEF01".toList, "12345678".toList, "12345678".toList]).length ∧
        ((encode ["ABCDEF01".toList, "12345678".toList, "12345678".toList]).drop 20).take 8 =
          "12345678".toList :=
  ⟨by decide,
    C3_found_offset ["ABCDEF01".toList, "12345678".toList, "12345678".toList]
      "12345678".toList 20 (by decide) (by decide) (by decide) (by decide)⟩

/-- C4, as amended: for every ready store and every 8-character UID `u` that has no line
feed, is neither the header text `AUTH UID` nor the tombstone pattern, and is not yet in
the store, the second of two `addUid u` calls in a row returns false, and the store then
holds exactly one live record with payload `u`. -/
theorem C4_add_twice (rs : List (List Char)) (u : List Char) (h : WF rs) (hu : u.length = 8)
    (hLF : '\n' ∉ u) (hH : u ≠ HEADER) (hB : u ≠ BLANK_UID) (hm : u ∉ rs) :
    (addUid u (addUid u (some (encode rs))).2).1 = false ∧
      ∃ rs', (addUid u (addUid u (some (encode rs))).2).2 = some (encode rs') ∧
        WF rs' ∧ liveCount u rs' = 1 := by
  rw [addUid_notMem u hu rs h hm]
  show (addUid u (some (encode (placeUid u rs)))).1 = false ∧ _
  rw [addUid_mem u hu hLF hH (placeUid u rs) (placeUid_WF u hu rs h) (placeUid_mem u rs)]
  exact ⟨rfl, placeUid u rs, rfl, placeUid_WF u hu rs h, liveCount_placeUid u hB rs hm⟩

theorem C4_add_twice_witness :
    WF ["ABCDEF01".toList] ∧ "12345678".toList ∉ ["ABCDEF01".toList] ∧
      (addUid "12345678".toList
        (addUid "12345678".toList (some (encode ["ABCDEF01".toList]))).2).1 = false ∧
      ∃ rs', (addUid "12345678".toList
          (addUid "12345678".toList (some (encode ["ABCDEF01".toList]))).2).2 =
            some (encode rs') ∧
        WF rs' ∧ liveCount "12345678".toList rs' = 1 :=
  ⟨by decide, by decide,
    C4_add_twice ["ABCDEF01".toList] "12345678".toList (by decide) (by decide) (by decide)
      (by decide) (by decide) (by decide)⟩

/-- C4 as stated fails: on the header-only store the second `addUid` of `AUTH UID` (and
of a UID with a line feed) returns true again and a second copy is stored; and after two
`addUid` of the tombstone pattern the one record written is a tombstone, not a live
record. -/
theorem C4_counterexample :
    ("AUTH UID".toList ∉ ([] : List (List Char)) ∧
      addUid "AUTH UID".toList (addUid "AUTH UID".toList (some (encode []))).2 =
        (true, some (encode ["AUTH UID".toList, "AUTH UID".toList]))) ∧
    ("1234\n678".toList ∉ ([] : List (List Char)) ∧
      addUid "1234\n678".toList (addUid "1234\n678".toList (some (encode []))).2 =
        (true, some (encode ["1234\n678".toList, "1234\n678".toList]))) ∧
    ("        ".toList ∉ ([] : List (List Char)) ∧
      addUid "        ".toList (addUid "        ".toList (some (encode []))).2 =
        (false, some (encode ["        ".toList])) ∧
      liveCount "        ".toList ["        ".toList] = 0) := by
  decide

/-- C5, as amended: for every ready store and every 8-character UID `u` that has no line
feed and is neither the header text `AUTH UID` nor the tombstone pattern, `addUid u`
followed by `delUid u` (which returns within one pass per record) leaves a file in which
`doesUidExist u` returns 0 and the 10 bytes of the slot where `u` was stored are 8 spaces,
CR, LF. -/
theorem C5_add_then_del (rs : List (List Char)) (u : List Char) (fuel : Nat) (h : WF rs)
    (hu : u.length = 8) (hLF : '\n' ∉ u) (hH : u ≠ HEADER) (hB : u ≠ BLANK_UID)
    (hf : rs.length + 1 ≤ fuel) :
    ∃ n d p, delUid fuel u (addUid u (some (encode rs))).2 = (some n, some d) ∧
      doesUidExist u (some d) = 0 ∧
      doesUidExist u (addUid u (some (encode rs))).2 = p ∧ 10 ≤ p ∧
      (d.drop p).take 10 = BLANK_UID ++ CRLF := by
  have key : ∀ rs1 : List (List Char), WF rs1 → u ∈ rs1 → rs1.length ≤ fuel →
      ∃ n d p, delUid fuel u (some (encode rs1)) = (some n, some d) ∧
        doesUidExist u (some d) = 0 ∧ doesUidExist u (some (encode rs1)) = p ∧ 10 ≤ p ∧
        (d.drop p).take 10 = BLANK_UID ++ CRLF := by
    intro rs1 h1 hm1 hf1
    obtain ⟨k, hk, hloc⟩ := doesUidExist_mem u hu hLF hH rs1 h1 hm1
    obtain ⟨_, hget, _⟩ := firstIndex_some u rs1 k hk
    refine ⟨0 + rs1.count u, encode (scrubAll u rs1), 10 + 10 * k, ?_, ?_, hloc, by omega, ?_⟩
    · exact delUidLoop_good u hu hLF hH hB (rs1.count u) rs1 h1 rfl fuel 0
        (le_trans (List.count_le_length u rs1) hf1)
    · exact doesUidExist_notMem u hu _ (scrubAll_WF u rs1 h1) (scrubAll_absent u hB rs1)
    · have := scrubAll_get u rs1 k u hget
      rw [if_pos rfl] at this
      exact encode_record _ k BLANK_UID (scrubAll_WF u rs1 h1) this
  by_cases hm : u ∈ rs
  · rw [addUid_mem u hu hLF hH rs h hm]
    exact key rs h hm (by omega)
  · rw [addUid_notMem u hu rs h hm]
    refine key (placeUid u rs) (placeUid_WF u hu rs h) (placeUid_mem u rs) ?_
    rcases placeUid_length u rs with e | e <;> omega

theorem C5_add_then_del_witness :
    WF ["ABCDEF01".toList] ∧
      ∃ n d p, delUid 2 "12345678".toList
          (addUid "12345678".toList (some (encode ["ABCDEF01".toList]))).2 = (some n, some d) ∧
        doesUidExist "12345678".toList (some d) = 0 ∧
        doesUidExist "12345678".toList
          (addUid "12345678".toList (some (encode ["ABCDEF01".toList]))).2 = p ∧ 10 ≤ p ∧
        (d.drop p).take 10 = BLANK_UID ++ CRLF :=
  ⟨by decide,
    C5_add_then_del ["ABCDEF01".toList] "12345678".toList 2 (by decide) (by decide)
      (by decide) (by decide) (by decide) (by decide)⟩

/-- C5 as stated fails: on the header-only store, after `addUid` and `delUid` of
`AUTH UID` (or of a UID with a line feed) nothing is scrubbed and the slot at offset 10
still holds the UID; and after `addUid` of the tombstone pattern, `delUid` of it never
returns, whatever the number of passes allowed. -/
theorem C5_counterexample :
    ((∀ fuel, delUid fuel "AUTH UID".toList (addUid "AUTH UID".toList (some (encode []))).2 =
        (some 0, some (encode ["AUTH UID".toList]))) ∧
      ((encode ["AUTH UID".toList]).drop 10).take 10 = "AUTH UID\r\n".toList) ∧
    ((∀ fuel, delUid fuel "1234\n678".toList
        (addUid "1234\n678".toList (some (encode []))).2 =
        (some 0, some (encode ["1234\n678".toList]))) ∧
      ((encode ["1234\n678".toList]).drop 10).take 10 = "1234\n678\r\n".toList) ∧
    (∀ fuel, (delUid fuel "        ".toList
        (addUid "        ".toList (some (encode []))).2).1 = none) := by
  have e1 : (addUid "AUTH UID".toList (some (encode []))).2 =
      some (encode ["AUTH UID".toList]) := by decide
  have e2 : (addUid "1234\n678".toList (some (encode []))).2 =
      some (encode ["1234\n678".toList]) := by decide
  have e3 : (addUid "        ".toList (some (encode []))).2 = some (encode [BLANK_UID]) := by
    decide
  refine ⟨⟨fun fuel => ?_, by decide⟩, ⟨fun fuel => ?_, by decide⟩, fun fuel => ?_⟩
  · rw [e1]; exact delUid_zero fuel _ _ (by decide)
  · rw [e2]; exact delUid_zero fuel _ _ (by decide)
  · rw [e3]
    show (delUid fuel BLANK_UID (some (encode [BLANK_UID]))).1 = none
    rw [delUid_blank_diverges [BLANK_UID] (by decide) (by decide) fuel]

/-- C6, as amended: for every ready store and every 8-character UID `u` that has no line
feed and is neither the header text `AUTH UID` nor the tombstone pattern, `delUid u`
returns, within one pass per copy, the number of records with payload `u`; afterwards
each of those records is a tombstone, every other record, the header and the file length
are unchanged. -/
theorem C6_del_all (rs : List (List Char)) (u : List Char) (fuel : Nat) (h : WF rs)
    (hu : u.length = 8) (hLF : '\n' ∉ u) (hH : u ≠ HEADER) (hB : u ≠ BLANK_UID)
    (hf : rs.count u ≤ fuel) :
    ∃ rs', delUid fuel u (some (encode rs)) = (some (rs.count u), some (encode rs')) ∧
      rs'.length = rs.length ∧
      (∀ (j : Nat) (p : List Char), rs[j]? = some p → rs'[j]? = some (if p = u then BLANK_UID else p)) ∧
      (encode rs').length = (encode rs).length := by
  refine ⟨scrubAll u rs, ?_, by simp [scrubAll], fun j p hj => scrubAll_get u rs j p hj, ?_⟩
  · have := delUidLoop_good u hu hLF hH hB (rs.count u) rs h rfl fuel 0 hf
    rw [Nat.zero_add] at this
    exact this
  · rw [encode_length _ (scrubAll_WF u rs h), encode_length rs h]
    simp [scrubAll]

theorem C6_del_all_witness :
    WF ["12345678".toList, "ABCDEF01".toList, "12345678".toList, "12345678".toList] ∧
      ∃ rs', delUid 3 "12345678".toList (some (encode
          ["12345678".toList, "ABCDEF01".toList, "12345678".toList, "12345678".toList])) =
          (some 3, some (encode rs')) ∧
        rs'.length = 4 ∧
        (∀ (j : Nat) (p : List Char), ["12345678".toList, "ABCDEF01".toList, "12345678".toList,
            "12345678".toList][j]? = some p →
          rs'[j]? = some (if p = "12345678".toList then BLANK_UID else p)) ∧
        (encode rs').length = (encode
          ["12345678".toList, "ABCDEF01".toList, "12345678".toList, "12345678".toList]).length :=
  ⟨by decide,
    C6_del_all ["12345678".toList, "ABCDEF01".toList, "12345678".toList, "12345678".toList]
      "12345678".toList 3 (by decide) (by decide) (by decide) (by decide) (by decide)
      (by decide)⟩

/-- C6 as stated fails: with one record of payload `AUTH UID` (or of a payload with a
line feed) `delUid` returns 0, not 1, and scrubs nothing; with one tombstone record,
`delUid` of the tombstone pattern never returns. -/
theorem C6_counterexample :
    (["AUTH UID".toList].count "AUTH UID".toList = 1 ∧
      ∀ fuel, delUid fuel "AUTH UID".toList (some (encode ["AUTH UID".toList])) =
        (some 0, some (encode ["AUTH UID".toList]))) ∧
    (["1234\n678".toList].count "1234\n678".toList = 1 ∧
      ∀ fuel, delUid fuel "1234\n678".toList (some (encode ["1234\n678".toList])) =
        (some 0, some (encode ["1234\n678".toList]))) ∧
    (["        ".toList].count "        ".toList = 1 ∧
      ∀ fuel, (delUid fuel "        ".toList (some (encode ["        ".toList]))).1 = none) := by
  refine ⟨⟨by decide, fun fuel => delUid_zero fuel _ _ (by decide)⟩,
    ⟨by decide, fun fuel => delUid_zero fuel _ _ (by decide)⟩, by decide, fun fuel => ?_⟩
  show (delUid fuel BLANK_UID (some (encode [BLANK_UID]))).1 = none
  rw [delUid_blank_diverges [BLANK_UID] (by decide) (by decide) fuel]

/-- C7: for every ready store with at least one tombstone record and every 8-character
UID `u3` not in the store, `addUid u3` returns true and writes `u3` into the first
tombstone slot: the records are the old ones with record `k` replaced, `k` being the
index of the first tombstone, and the file length is unchanged. -/
theorem C7_slot_reuse (rs : List (List Char)) (u3 : List Char) (h : WF rs)
    (hu : u3.length = 8) (hT : BLANK_UID ∈ rs) (hm : u3 ∉ rs) :
    ∃ k, rs[k]? = some BLANK_UID ∧ (∀ j, j < k → rs[j]? ≠ some BLANK_UID) ∧
      addUid u3 (some (encode rs)) = (true, some (encode (rs.set k u3))) ∧
      (encode (rs.set k u3)).length = (encode rs).length := by
  cases hfi : firstIndex BLANK_UID rs with
  | none => exact absurd hT ((firstIndex_none BLANK_UID rs).mp hfi)
  | some k =>
    obtain ⟨_, hget, hfirst⟩ := firstIndex_some BLANK_UID rs k hfi
    refine ⟨k, hget, hfirst, ?_, ?_⟩
    · rw [addUid_notMem u3 hu rs h hm, placeUid, hfi]
    · rw [encode_length _ (WF_set rs h k u3 hu), encode_length rs h]
      simp

theorem C7_slot_reuse_witness :
    WF ["11111111".toList, BLANK_UID, "22222222".toList] ∧
      ∃ k, ["11111111".toList, BLANK_UID, "22222222".toList][k]? = some BLANK_UID ∧
        (∀ j, j < k → ["11111111".toList, BLANK_UID, "22222222".toList][j]? ≠
          some BLANK_UID) ∧
        addUid "33333333".toList
            (some (encode ["11111111".toList, BLANK_UID, "22222222".toList])) =
          (true, some (encode
            (["11111111".toList, BLANK_UID, "22222222".toList].set k "33333333".toList))) ∧
        (encode (["11111111".toList, BLANK_UID, "22222222".toList].set k
            "33333333".toList)).length =
          (encode ["11111111".toList, BLANK_UID, "22222222".toList]).length :=
  ⟨by decide,
    C7_slot_reuse ["11111111".toList, BLANK_UID, "22222222".toList] "33333333".toList
      (by decide) (by decide) (by decide) (by decide)⟩

/-- C8, as amended: starting from the header-only store that `setup` creates, a
sequence of `addUid` and `delUid` calls with 8-character UIDs that have no line feed and
are not the header text `AUTH UID`, each `delUid` allowed one pass per call of the
sequence, either runs to its end, and then no two live records have the same payload, or
stops in a `delUid` of the tombstone pattern that does not return. -/
theorem C8_no_duplicates (ops : List Op) (fuel : Nat)
    (hv : ∀ op ∈ ops, op.uid.length = 8 ∧ '\n' ∉ op.uid ∧ op.uid ≠ HEADER)
    (hf : ops.length ≤ fuel) :
    (∃ rs, runOps fuel ops (setup false false true none) = some (some (encode rs)) ∧
        WF rs ∧ NoDupLive rs) ∨
      (runOps fuel ops (setup false false true none) = none ∧ Op.del BLANK_UID ∈ ops) := by
  have e : setup false false true none = some (encode []) := rfl
  rw [e]
  exact runOps_inv ops [] fuel (by decide) (fun i j p _ hi _ => absurd hi (by simp)) hv
    (by simpa using hf)

theorem C8_no_duplicates_witness :
    (∃ rs, runOps 4 [Op.add "12345678".toList, Op.add "ABCDEF01".toList,
          Op.del "12345678".toList, Op.add "ABCDEF01".toList]
          (setup false false true none) = some (some (encode rs)) ∧
        WF rs ∧ NoDupLive rs) ∨
      (runOps 4 [Op.add "12345678".toList, Op.add "ABCDEF01".toList,
          Op.del "12345678".toList, Op.add "ABCDEF01".toList]
          (setup false false true none) = none ∧
        Op.del BLANK_UID ∈ [Op.add "12345678".toList, Op.add "ABCDEF01".toList,
          Op.del "12345678".toList, Op.add "ABCDEF01".toList]) :=
  C8_no_duplicates [Op.add "12345678".toList, Op.add "ABCDEF01".toList,
    Op.del "12345678".toList, Op.add "ABCDEF01".toList] 4
    (by
      intro op hop
      simp only [List.mem_cons, List.mem_singleton, List.not_mem_nil, or_false] at hop
      rcases hop with rfl | rfl | rfl | rfl <;> decide)
    (by decide)

/-- C8 as stated fails: from the header-only store, two `addUid` of `AUTH UID` (or of a
UID with a line feed) store two live records with the same payload. -/
theorem C8_counterexample :
    (runOps 0 [Op.add "AUTH UID".toList, Op.add "AUTH UID".toList]
        (setup false false true none) =
        some (some (encode ["AUTH UID".toList, "AUTH UID".toList])) ∧
      ¬ NoDupLive ["AUTH UID".toList, "AUTH UID".toList]) ∧
    (runOps 0 [Op.add "1234\n678".toList, Op.add "1234\n678".toList]
        (setup false false true none) =
        some (some (encode ["1234\n678".toList, "1234\n678".toList])) ∧
      ¬ NoDupLive ["1234\n678".toList, "1234\n678".toList]) := by
  refine ⟨⟨by decide, fun hnd => ?_⟩, ⟨by decide, fun hnd => ?_⟩⟩
  · exact absurd (hnd 0 1 "AUTH UID".toList (by decide) rfl rfl) (by decide)
  · exact absurd (hnd 0 1 "1234\n678".toList (by decide) rfl rfl) (by decide)

/-- C9: the on-disk format (the file is `AUTH UID` CR LF followed by a whole number of
10-byte records, each 8 payload characters without CR or LF and then CR LF) holds when
`setup` has created the file, and from a file in the format it holds after `addUid u` and
after every pass of `delUid u`, for every 8-character UID `u` without CR or LF; the length
of a file in the format is 10 plus a multiple of 10. -/
theorem C9_format_invariant (fs : Option (List Char)) (u : List Char) (hF : Format fs)
    (hu : u.length = 8) (hCR : '\r' ∉ u) (hLF : '\n' ∉ u) :
    (∀ fmt fok, Format (setup fmt fok true none)) ∧ Format (setup true true true fs) ∧
      Format (addUid u fs).2 ∧ (∀ fuel, Format (delUid fuel u fs).2) ∧
      (∀ fs', Format fs' → ∃ d n, fs' = some d ∧ d.length = 10 + 10 * n) := by
  obtain ⟨rs, hrs, rfl⟩ := hF
  have h := FormatRecs_WF rs hrs
  have hnil : Format (some (encode [])) := ⟨[], fun p hp => absurd hp (by simp), rfl⟩
  refine ⟨fun fmt fok => ?_, hnil, ?_, fun fuel => ?_, ?_⟩
  · have e : setup fmt fok true none = some (encode []) := by
      cases fmt <;> cases fok <;> rfl
    rw [e]; exact hnil
  · rcases addUid_cases u hu rs h with e | e
    · rw [e]; exact ⟨rs, hrs, rfl⟩
    · rw [e]; exact ⟨placeUid u rs, FormatRecs_placeUid rs u hrs ⟨hu, hCR, hLF⟩, rfl⟩
  · obtain ⟨rs', e, _, _, hmem⟩ := delUidLoop_inv u hu fuel rs 0 h
    refine ⟨rs', fun p hp => ?_, e⟩
    rcases hmem p hp with h1 | h1
    · exact hrs p h1
    · rw [h1]; decide
  · rintro fs' ⟨rs', hrs', rfl⟩
    exact ⟨encode rs', rs'.length, rfl, encode_length rs' (FormatRecs_WF rs' hrs')⟩

theorem C9_format_invariant_witness :
    Format (some (encode ["ABCDEF01".toList, "12345678".toList])) ∧
      (∀ fmt fok, Format (setup fmt fok true none)) ∧
      Format (setup true true true (some (encode ["ABCDEF01".toList, "12345678".toList]))) ∧
      Format (addUid "12345678".toList
        (some (encode ["ABCDEF01".toList, "12345678".toList]))).2 ∧
      (∀ fuel, Format (delUid fuel "12345678".toList
        (some (encode ["ABCDEF01".toList, "12345678".toList]))).2) ∧
      (∀ fs', Format fs' → ∃ d n, fs' = some d ∧ d.length = 10 + 10 * n) :=
  ⟨⟨["ABCDEF01".toList, "12345678".toList], by decide, rfl⟩,
    C9_format_invariant (some (encode ["ABCDEF01".toList, "12345678".toList]))
      "12345678".toList ⟨["ABCDEF01".toList, "12345678".toList], by decide, rfl⟩
      (by decide) (by decide) (by decide)⟩

/-- C10: for every ready store and every 8-character UID `u`, the file after `addUid u`
is as long as before or exactly 10 bytes longer, and the file after any number of passes
of the loop of `delUid u` is exactly as long as before; unless `u` is the tombstone
pattern, `delUid u` returns within one pass per record. -/
theorem C10_never_shortened (rs : List (List Char)) (u : List Char) (h : WF rs)
    (hu : u.length = 8) :
    (∃ d, (addUid u (some (encode rs))).2 = some d ∧
        (d.length = (encode rs).length ∨ d.length = (encode rs).length + 10)) ∧
      (∀ fuel, ∃ d, (delUid fuel u (some (encode rs))).2 = some d ∧
        d.length = (encode rs).length) ∧
      (u = BLANK_UID ∨
        ∀ fuel, rs.length ≤ fuel → ∃ n, (delUid fuel u (some (encode rs))).1 = some n) := by
  refine ⟨?_, fun fuel => ?_, ?_⟩
  · rcases addUid_cases u hu rs h with e | e
    · rw [e]; exact ⟨encode rs, rfl, Or.inl rfl⟩
    · rw [e]
      refine ⟨encode (placeUid u rs), rfl, ?_⟩
      rw [encode_length _ (placeUid_WF u hu rs h), encode_length rs h]
      rcases placeUid_length u rs with e1 | e1 <;> rw [e1] <;> omega
  · obtain ⟨rs', e, hwf, hlen, _⟩ := delUidLoop_inv u hu fuel rs 0 h
    exact ⟨encode rs', e, by rw [encode_length rs' hwf, encode_length rs h, hlen]⟩
  · by_cases hB : u = BLANK_UID
    · exact Or.inl hB
    · exact Or.inr (fun fuel hf => delUid_terminates u hu hB rs h fuel hf)

theorem C10_never_shortened_witness :
    WF ["ABCDEF01".toList, BLANK_UID, "12345678".toList] ∧
      (∃ d, (addUid "12345678".toList
          (some (encode ["ABCDEF01".toList, BLANK_UID, "12345678".toList]))).2 = some d ∧
        (d.length = (encode ["ABCDEF01".toList, BLANK_UID, "12345678".toList]).length ∨
          d.length =
            (encode ["ABCDEF01".toList, BLANK_UID, "12345678".toList]).length + 10)) ∧
      (∀ fuel, ∃ d, (delUid fuel "12345678".toList
          (some (encode ["ABCDEF01".toList, BLANK_UID, "12345678".toList]))).2 = some d ∧
        d.length = (encode ["ABCDEF01".toList, BLANK_UID, "12345678".toList]).length) ∧
      ("12345678".toList = BLANK_UID ∨
        ∀ fuel, ["ABCDEF01".toList, BLANK_UID, "12345678".toList].length ≤ fuel →
          ∃ n, (delUid fuel "12345678".toList
            (some (encode ["ABCDEF01".toList, BLANK_UID, "12345678".toList]))).1 = some n) :=
  ⟨by decide,
    C10_never_shortened ["ABCDEF01".toList, BLANK_UID, "12345678".toList] "12345678".toList
      (by decide) (by decide)⟩

/-- C11, as amended: for every store state and every UID `u`, when the file deletion
succeeds and the `setup` that follows can create the file, `clearCache` returns true and
leaves exactly the 10-byte header line `AUTH UID` CR LF; whether or not the file could be
created, `doesUidExist u` returns 0 afterwards for every `u`. -/
theorem C11_clearCache (fs : Option (List Char)) (u : List Char) (removeOk createOk : Bool)
    (hr : removeOk = true) (hc : createOk = true) :
    (clearCache removeOk createOk fs).1 = true ∧
      (clearCache removeOk createOk fs).2 = some (HEADER ++ CRLF) ∧
      (HEADER ++ CRLF).length = 10 ∧ HEADER ++ CRLF = encode [] ∧
      ∀ c, doesUidExist u (clearCache removeOk c fs).2 = 0 := by
  subst hr hc
  refine ⟨rfl, rfl, rfl, rfl, fun c => ?_⟩
  cases c
  · rfl
  · exact doesUidExist_headerOnly u

theorem C11_clearCache_witness :
    (clearCache true true (some (encode ["12345678".toList]))).1 = true ∧
      (clearCache true true (some (encode ["12345678".toList]))).2 = some (HEADER ++ CRLF) ∧
      (HEADER ++ CRLF).length = 10 ∧ HEADER ++ CRLF = encode [] ∧
      ∀ c, doesUidExist "12345678".toList
        (clearCache true c (some (encode ["12345678".toList]))).2 = 0 :=
  C11_clearCache (some (encode ["12345678".toList])) "12345678".toList true true rfl rfl

/-- C11 as stated fails: when the deletion succeeds and the `open` in mode `w+` of the
following `setup` fails, `clearCache` still returns true and no file is left. -/
theorem C11_counterexample :
    clearCache true false (some (encode ["12345678".toList])) = (true, none) := by
  decide

/-- C12, as amended: `setup(false)` leaves an existing file byte for byte unchanged;
when the file is absent and can be created, it creates it with exactly the header line,
and when it cannot be created the file stays absent; running `setup(false)` twice, the
creation succeeding or failing alike both times, yields the same file as running it
once, and a second run never changes a file the first run has left. -/
theorem C12_setup_idempotent (fs : Option (List Char)) (d : List Char)
    (formatOk createOk formatOk2 createOk2 : Bool) :
    setup false formatOk createOk (some d) = some d ∧
      setup false formatOk true none = some (HEADER ++ CRLF) ∧
      setup false formatOk false none = none ∧
      setup false formatOk createOk (setup false formatOk createOk fs) =
        setup false formatOk createOk fs ∧
      (setup false formatOk createOk fs = none ∨
        setup false formatOk2 createOk2 (setup false formatOk createOk fs) =
          setup false formatOk createOk fs) := by
  refine ⟨rfl, rfl, rfl, ?_, ?_⟩
  · cases fs with
    | some d0 => rfl
    | none => cases createOk <;> rfl
  · cases fs with
    | some d0 => exact Or.inr rfl
    | none =>
      cases createOk
      · exact Or.inl rfl
      · exact Or.inr rfl

/-- C12 as stated fails: with the file absent and the `open` in mode `w+` failing,
`setup(false)` creates nothing; and a second `setup(false)` whose creation succeeds then
yields a file that the single run did not. -/
theorem C12_counterexample :
    setup false false false none = none ∧
      setup false false true (setup false false false none) = some (HEADER ++ CRLF) ∧
      setup false false true (setup false false false none) ≠ setup false false false none := by
  decide

/-- C13 at the failing input: with the file absent (it cannot be opened),
`doesUidExist` returns 0, `delUid` returns 0 and `writeUid` returns false, but `addUid`
returns true although nothing is stored. -/
theorem C13_addUid_reports_stored (u : List Char) (fuel : Nat) :
    doesUidExist u none = 0 ∧ delUid fuel u none = (some 0, none) ∧
      writeUid u none = (false, none) ∧ addUid u none = (true, none) :=
  ⟨rfl, delUid_zero fuel u none rfl, rfl, rfl⟩

/-- C14: on the header-only store that `setup` creates, `addUid "12345678"` returns
true, a second `addUid "12345678"` returns false, `doesUidExist "12345678"` returns 10,
`delUid "12345678"` returns 1 (as soon as one pass is allowed), and `doesUidExist
"12345678"` then returns 0. -/
theorem C14_example_scenario :
    setup false false true none = some (encode []) ∧
      addUid "12345678".toList (some (encode [])) =
        (true, some (encode ["12345678".toList])) ∧
      addUid "12345678".toList (some (encode ["12345678".toList])) =
        (false, some (encode ["12345678".toList])) ∧
      doesUidExist "12345678".toList (some (encode ["12345678".toList])) = 10 ∧
      (∀ fuel, delUid (fuel + 1) "12345678".toList (some (encode ["12345678".toList])) =
        (some 1, some (encode [BLANK_UID]))) ∧
      doesUidExist "12345678".toList (some (encode [BLANK_UID])) = 0 := by
  refine ⟨rfl, by decide, by decide, by decide, fun fuel => ?_, by decide⟩
  exact delUidLoop_good "12345678".toList (by decide) (by decide) (by decide) (by decide) 1
    ["12345678".toList] (by decide) (by decide) (fuel + 1) 0 (by omega)

/-- C15, as amended: for every ready store and every 8-character UID `u`, unless `u` is
the tombstone pattern and the store holds a tombstone, the loop of `delUid u` stops
within one pass per record and returns a count, which is at most the number of records
with payload `u`. -/
theorem C15_delUid_terminates (rs : List (List Char)) (u : List Char) (fuel : Nat)
    (h : WF rs) (hu : u.length = 8) (hB : u ≠ BLANK_UID ∨ BLANK_UID ∉ rs)
    (hf : rs.length ≤ fuel) :
    ∃ n, (delUid fuel u (some (encode rs))).1 = some n ∧ n ≤ rs.count u ∧
      rs.count u ≤ rs.length := by
  obtain ⟨n, h1, h2⟩ := delUid_terminates_count u hu rs h hB fuel hf
  exact ⟨n, h1, h2, List.count_le_length u rs⟩

theorem C15_delUid_terminates_witness :
    WF ["12345678".toList, "ABCDEF01".toList, "12345678".toList] ∧
      ∃ n, (delUid 3 "12345678".toList
          (some (encode ["12345678".toList, "ABCDEF01".toList, "12345678".toList]))).1 =
            some n ∧
        n ≤ ["12345678".toList, "ABCDEF01".toList, "12345678".toList].count
          "12345678".toList ∧
        ["12345678".toList, "ABCDEF01".toList, "12345678".toList].count "12345678".toList ≤
          ["12345678".toList, "ABCDEF01".toList, "12345678".toList].length :=
  ⟨by decide,
    C15_delUid_terminates ["12345678".toList, "ABCDEF01".toList, "12345678".toList]
      "12345678".toList 3 (by decide) (by decide) (Or.inl (by decide)) (by decide)⟩

/-- C15 as stated fails: after `addUid` and `delUid` of `12345678` on the header-only
store the file holds one tombstone record, and on that store the loop of `delUid` for
the tombstone pattern never stops, whatever the number of passes allowed: each pass
finds the record and scrubs it to what it was. -/
theorem C15_counterexample :
    (delUid 1 "12345678".toList (addUid "12345678".toList (some (encode []))).2).2 =
        some (encode ["        ".toList]) ∧
      ∀ fuel, delUid fuel "        ".toList (some (encode ["        ".toList])) =
        (none, some (encode ["        ".toList])) := by
  refine ⟨by decide, fun fuel => ?_⟩
  exact delUid_blank_diverges [BLANK_UID] (by decide) (by decide) fuel

/-- C16, as amended: for every ready store with no tombstone record and every
8-character UID `u` not in the store, `addUid u` returns true and the new file is the old
file followed by the 10 bytes `u` CR LF; when `u` has no line feed and is not the header
text `AUTH UID`, `doesUidExist u` then returns the old file length. -/
theorem C16_append (rs : List (List Char)) (u : List Char) (h : WF rs) (hu : u.length = 8)
    (hT : BLANK_UID ∉ rs) (hm : u ∉ rs) :
    addUid u (some (encode rs)) = (true, some (encode rs ++ (u ++ CRLF))) ∧
      (u ++ CRLF).length = 10 ∧
      ('\n' ∉ u ∧ u ≠ HEADER →
        doesUidExist u (some (encode rs ++ (u ++ CRLF))) = (encode rs).length) := by
  have e : encode rs ++ (u ++ CRLF) = encode (rs ++ [u]) := by
    simp [encode, body_append]
  have hp : placeUid u rs = rs ++ [u] := by
    unfold placeUid
    rw [(firstIndex_none BLANK_UID rs).mpr hT]
  refine ⟨?_, by simp [CRLF, hu], fun hg => ?_⟩
  · rw [addUid_notMem u hu rs h hm, hp, e]
  · rw [e, doesUidExist_encode u hu hg.1 _ (WF_append rs h u hu), if_neg (Ne.symm hg.2),
      firstIndex_append_new u rs hm, encode_length rs h]

theorem C16_append_witness :
    WF ["ABCDEF01".toList] ∧
      addUid "12345678".toList (some (encode ["ABCDEF01".toList])) =
        (true, some (encode ["ABCDEF01".toList] ++ ("12345678".toList ++ CRLF))) ∧
      ("12345678".toList ++ CRLF).length = 10 ∧
      doesUidExist "12345678".toList
        (some (encode ["ABCDEF01".toList] ++ ("12345678".toList ++ CRLF))) =
          (encode ["ABCDEF01".toList]).length :=
  ⟨by decide,
    (C16_append ["ABCDEF01".toList] "12345678".toList (by decide) (by decide) (by decide)
      (by decide)).1,
    (C16_append ["ABCDEF01".toList] "12345678".toList (by decide) (by decide) (by decide)
      (by decide)).2.1,
    (C16_append ["ABCDEF01".toList] "12345678".toList (by decide) (by decide) (by decide)
      (by decide)).2.2 ⟨by decide, by decide⟩⟩

/-- C16 as stated fails: on the header-only store `addUid` of `AUTH UID` (or of a UID
with a line feed) appends the record, but `doesUidExist` then returns 0, not the old file
length 10. -/
theorem C16_counterexample :
    (BLANK_UID ∉ ([] : List (List Char)) ∧ "AUTH UID".toList ∉ ([] : List (List Char)) ∧
      addUid "AUTH UID".toList (some (encode [])) =
        (true, some (encode [] ++ ("AUTH UID".toList ++ CRLF))) ∧
      (encode []).length = 10 ∧
      doesUidExist "AUTH UID".toList (some (encode [] ++ ("AUTH UID".toList ++ CRLF))) = 0) ∧
    ("1234\n678".toList ∉ ([] : List (List Char)) ∧
      addUid "1234\n678".toList (some (encode [])) =
        (true, some (encode [] ++ ("1234\n678".toList ++ CRLF))) ∧
      doesUidExist "1234\n678".toList
        (some (encode [] ++ ("1234\n678".toList ++ CRLF))) = 0) := by
  decide

/-- C17: whatever the state of the file (a ready store in particular) and whatever the
UIDs, if `addUid u` returns false the file is byte for byte unchanged, and if `delUid v`
returns 0 the file is byte for byte unchanged. -/
theorem C17_noop_unchanged (fs : Option (List Char)) (u v : List Char) (fuel : Nat) :
    ((addUid u fs).1 = false → (addUid u fs).2 = fs) ∧
      ((delUid fuel v fs).1 = some 0 → (delUid fuel v fs).2 = fs) := by
  refine ⟨fun hf => ?_, fun h0 => delUid_zero_unchanged fuel v fs h0⟩
  unfold addUid at hf ⊢
  by_cases hl : doesUidExist u fs = 0
  · rw [if_pos hl] at hf; exact absurd hf (by simp)
  · rw [if_neg hl]

theorem C17_noop_unchanged_witness :
    (addUid "12345678".toList (some (encode ["12345678".toList]))).1 = false ∧
      (addUid "12345678".toList (some (encode ["12345678".toList]))).2 =
        some (encode ["12345678".toList]) ∧
      (delUid 1 "ABCDEF01".toList (some (encode ["12345678".toList]))).1 = some 0 ∧
      (delUid 1 "ABCDEF01".toList (some (encode ["12345678".toList]))).2 =
        some (encode ["12345678".toList]) :=
  ⟨by decide,
    (C17_noop_unchanged (some (encode ["12345678".toList])) "12345678".toList
      "ABCDEF01".toList 1).1 (by decide),
    by decide,
    (C17_noop_unchanged (some (encode ["12345678".toList])) "12345678".toList
      "ABCDEF01".toList 1).2 (by decide)⟩

/-- C18: for every ready store and all 8-character UIDs `u` and `v` with `u ≠ v`, neither
the tombstone pattern, `doesUidExist v` returns the same value after `addUid u` as
before, and `delUid u` returns (within one pass per record) and `doesUidExist v` returns
the same value after it as before. -/
theorem C18_other_uid_undisturbed (rs : List (List Char)) (u v : List Char) (fuel : Nat)
    (h : WF rs) (hu : u.length = 8) (hv : v.length = 8) (huv : u ≠ v)
    (hBu : u ≠ BLANK_UID) (hBv : v ≠ BLANK_UID) (hf : rs.length ≤ fuel) :
    doesUidExist v (addUid u (some (encode rs))).2 = doesUidExist v (some (encode rs)) ∧
      (∃ n, (delUid fuel u (some (encode rs))).1 = some n) ∧
      doesUidExist v (delUid fuel u (some (encode rs))).2 =
        doesUidExist v (some (encode rs)) := by
  refine ⟨?_, delUid_terminates u hu hBu rs h fuel hf, ?_⟩
  · rcases addUid_cases u hu rs h with e | e
    · rw [e]
    · rw [e]
      exact doesUidExist_congr v hv rs (placeUid u rs) h (placeUid_WF u hu rs h)
        (firstIndex_placeUid_other u v huv hBv rs)
  · obtain ⟨rs', e, hwf, hfi⟩ := delUidLoop_frame u v hu huv hBv fuel rs 0 h
    have e' : (delUid fuel u (some (encode rs))).2 = some (encode rs') := e
    rw [e']
    exact doesUidExist_congr v hv rs rs' h hwf hfi

theorem C18_other_uid_undisturbed_witness :
    WF ["12345678".toList, BLANK_UID, "ABCDEF01".toList] ∧
      doesUidExist "ABCDEF01".toList
          (addUid "99999999".toList
            (some (encode ["12345678".toList, BLANK_UID, "ABCDEF01".toList]))).2 =
        doesUidExist "ABCDEF01".toList
          (some (encode ["12345678".toList, BLANK_UID, "ABCDEF01".toList])) ∧
      (∃ n, (delUid 3 "99999999".toList
          (some (encode ["12345678".toList, BLANK_UID, "ABCDEF01".toList]))).1 = some n) ∧
      doesUidExist "ABCDEF01".toList
          (delUid 3 "99999999".toList
            (some (encode ["12345678".toList, BLANK_UID, "ABCDEF01".toList]))).2 =
        doesUidExist "ABCDEF01".toList
          (some (encode ["12345678".toList, BLANK_UID, "ABCDEF01".toList])) :=
  ⟨by decide,
    C18_other_uid_undisturbed ["12345678".toList, BLANK_UID, "ABCDEF01".toList]
      "99999999".toList "ABCDEF01".toList 3 (by decide) (by decide) (by decide) (by decide)
      (by decide) (by decide) (by decide)⟩

/-- C19: for every ready store and every record start `pos = 10 + 10 * k` with
`pos + 10` within the file, `scrubPosition pos` returns true; afterwards the 8 bytes at
`pos` are spaces, the two bytes after them are CR LF as they were before, the bytes before
`pos` and from `pos + 10` on are unchanged and so is the file length. -/
theorem C19_scrubPosition (rs : List (List Char)) (k : Nat) (h : WF rs)
    (hk : 10 + 10 * k + 10 ≤ (encode rs).length) :
    ∃ d, scrubPosition (10 + 10 * k) (some (encode rs)) = (true, some d) ∧
      d.length = (encode rs).length ∧
      (d.drop (10 + 10 * k)).take 8 = BLANK_UID ∧
      (d.drop (10 + 10 * k + 8)).take 2 = CRLF ∧
      ((encode rs).drop (10 + 10 * k + 8)).take 2 = CRLF ∧
      d.take (10 + 10 * k) = (encode rs).take (10 + 10 * k) ∧
      d.drop (10 + 10 * k + 10) = (encode rs).drop (10 + 10 * k + 10) := by
  have hlt : k < rs.length := by rw [encode_length rs h] at hk; omega
  obtain ⟨p, hp⟩ : ∃ p, rs[k]? = some p := ⟨rs[k], List.getElem?_eq_getElem hlt⟩
  have hp8 : p.length = 8 := h p (List.mem_iff_getElem?.mpr ⟨k, hp⟩)
  have hc : (BLANK_UID ++ CRLF).length = 10 := rfl
  have hle : 10 + 10 * k ≤ (encode rs).length := by omega
  obtain ⟨o1, o2, o3, o4⟩ := overwrite_bytes (encode rs) (BLANK_UID ++ CRLF) (10 + 10 * k) hc hk
  have s1 := record_split _ BLANK_UID o2 rfl
  have s2 := record_split _ p (encode_record rs k p h hp) hp8
  rw [List.drop_drop] at s1 s2
  refine ⟨(encode rs).take (10 + 10 * k) ++ (BLANK_UID ++ CRLF) ++
    (encode rs).drop (10 + 10 * k + 10), ?_, o1, s1.1, ?_, ?_, o3, o4⟩
  · simp only [scrubPosition, File.seekSet, if_pos hle, File.println, hc, if_true]
  · exact s1.2
  · exact s2.2

theorem C19_scrubPosition_witness :
    WF ["12345678".toList, "ABCDEF01".toList] ∧
      ∃ d, scrubPosition (10 + 10 * 1)
          (some (encode ["12345678".toList, "ABCDEF01".toList])) = (true, some d) ∧
        d.length = (encode ["12345678".toList, "ABCDEF01".toList]).length ∧
        (d.drop (10 + 10 * 1)).take 8 = BLANK_UID ∧
        (d.drop (10 + 10 * 1 + 8)).take 2 = CRLF ∧
        ((encode ["12345678".toList, "ABCDEF01".toList]).drop (10 + 10 * 1 + 8)).take 2 =
          CRLF ∧
        d.take (10 + 10 * 1) =
          (encode ["12345678".toList, "ABCDEF01".toList]).take (10 + 10 * 1) ∧
        d.drop (10 + 10 * 1 + 10) =
          (encode ["12345678".toList, "ABCDEF01".toList]).drop (10 + 10 * 1 + 10) :=
  ⟨by decide,
    C19_scrubPosition ["12345678".toList, "ABCDEF01".toList] 1 (by decide) (by decide)⟩

end CardCache
